import Mathlib

/-!
Verification of the canonical k-mer encoder of `src/Common/ReadsProcessor.cpp`.

The C++ code is shallowly embedded: the eight 256-entry lookup tables
(`fw0..fw3`, `rv0..rv3`) are embedded as functions on byte values (every
entry other than the sixteen listed letters is `0xFF`), the constructor
becomes `mkGeom` / `mkReadsProcessor`, and `prepSeq` becomes a family of
structurally recursive functions, one per source loop, each recursing on
the loop's exact iteration count.  Buffers (`m_fw`, `m_rv`) are modelled as
total functions `Nat → Nat` initialised to the zero function (the
`memset`); a returned buffer is read back as its first `m_kmerSizeInBytes`
bytes, so a store past that bound (which the palindromic branch of the
source can perform) is retained in the function but invisible in the
result, mirroring what a caller of the C++ code observes.
Sequence characters are byte values (`Nat`); reads go through the tables
exactly as in the source.
-/

set_option maxRecDepth 8000

namespace Arcs

/-- `fw3` table of ReadsProcessor.cpp: code of a base in bits 0-1;
`0xFF` for every byte that is not one of `A C G T a c g t`. -/
def fw3 (c : Nat) : Nat :=
  if c = 65 ∨ c = 97 then 0x00
  else if c = 67 ∨ c = 99 then 0x01
  else if c = 71 ∨ c = 103 then 0x02
  else if c = 84 ∨ c = 116 then 0x03
  else 0xFF

/-- `fw2` table: code shifted to bits 2-3; `0xFF` on invalid bytes. -/
def fw2 (c : Nat) : Nat :=
  if c = 65 ∨ c = 97 then 0x00
  else if c = 67 ∨ c = 99 then 0x04
  else if c = 71 ∨ c = 103 then 0x08
  else if c = 84 ∨ c = 116 then 0x0C
  else 0xFF

/-- `fw1` table: code shifted to bits 4-5; `0xFF` on invalid bytes. -/
def fw1 (c : Nat) : Nat :=
  if c = 65 ∨ c = 97 then 0x00
  else if c = 67 ∨ c = 99 then 0x10
  else if c = 71 ∨ c = 103 then 0x20
  else if c = 84 ∨ c = 116 then 0x30
  else 0xFF

/-- `fw0` table: code shifted to bits 6-7; `0xFF` on invalid bytes. -/
def fw0 (c : Nat) : Nat :=
  if c = 65 ∨ c = 97 then 0x00
  else if c = 67 ∨ c = 99 then 0x40
  else if c = 71 ∨ c = 103 then 0x80
  else if c = 84 ∨ c = 116 then 0xC0
  else 0xFF

/-- `rv3` table: complemented code (A↔T, C↔G) in bits 0-1. -/
def rv3 (c : Nat) : Nat :=
  if c = 65 ∨ c = 97 then 0x03
  else if c = 67 ∨ c = 99 then 0x02
  else if c = 71 ∨ c = 103 then 0x01
  else if c = 84 ∨ c = 116 then 0x00
  else 0xFF

/-- `rv2` table: complemented code in bits 2-3. -/
def rv2 (c : Nat) : Nat :=
  if c = 65 ∨ c = 97 then 0x0C
  else if c = 67 ∨ c = 99 then 0x08
  else if c = 71 ∨ c = 103 then 0x04
  else if c = 84 ∨ c = 116 then 0x00
  else 0xFF

/-- `rv1` table: complemented code in bits 4-5. -/
def rv1 (c : Nat) : Nat :=
  if c = 65 ∨ c = 97 then 0x30
  else if c = 67 ∨ c = 99 then 0x20
  else if c = 71 ∨ c = 103 then 0x10
  else if c = 84 ∨ c = 116 then 0x00
  else 0xFF

/-- `rv0` table: complemented code in bits 6-7. -/
def rv0 (c : Nat) : Nat :=
  if c = 65 ∨ c = 97 then 0xC0
  else if c = 67 ∨ c = 99 then 0x80
  else if c = 71 ∨ c = 103 then 0x40
  else if c = 84 ∨ c = 116 then 0x00
  else 0xFF

/-- The geometry state of a `ReadsProcessor` instance. -/
structure ReadsProcessor where
  m_kmerSize : Nat
  m_kmerSizeInBytes : Nat
  m_halfSizeOfKmerInBytes : Nat
  m_hangingBases : Nat
  m_hangingBasesExist : Nat
deriving Repr, DecidableEq

/-- The body of the `ReadsProcessor` constructor (lines 19-36): the member
initialisers followed by the `windowSize % 8 != 0` adjustment. -/
def mkGeom (windowSize : Nat) : ReadsProcessor :=
  let kb := windowSize / 4
  let hb := windowSize / 8
  if windowSize % 8 ≠ 0 then
    let hanging := windowSize % 4
    if hanging % 4 ≠ 0 then
      ⟨windowSize, kb + 1, hb + 1, hanging, 1⟩
    else
      ⟨windowSize, kb, hb + 1, hanging, 0⟩
  else
    ⟨windowSize, kb, hb, 0, 0⟩

/-- The constructor including its `assert(m_kmerSize > 3)`: construction
aborts (no instance is produced) unless the window size exceeds 3. -/
def mkReadsProcessor (windowSize : Nat) : Option ReadsProcessor :=
  if windowSize > 3 then some (mkGeom windowSize) else none

/-- Pointwise update of a buffer modelled as a total function. -/
def upd (f : Nat → Nat) (i v : Nat) : Nat → Nat :=
  fun j => if j = i then v else f j

/-- The first `n` bytes of a buffer: what a caller reading the returned
`unsigned char*` observes. -/
def bufList (f : Nat → Nat) (n : Nat) : List Nat :=
  (List.range n).map f

/-- The loop of the forward hanging-byte block of `prepSeq`
(lines 435-439): `for (; index <= lastPos; --lastPos)` shifting the byte
right by 2 and or-ing `fw0` of the char at `lastPos`.  The counter is
the loop's iteration count `lastPos + 1 - index`, exact whenever
`index ≥ 1` (in every reachable state `index ≥ 4`). -/
def fwHangIter (seq : Nat → Nat) : Nat → Nat → Nat → Nat
  | _, b, 0 => b
  | lastPos, b, n + 1 =>
      fwHangIter seq (lastPos - 1) ((b >>> 2) ||| fw0 (seq lastPos)) n

/-- The loop of the reverse hanging-byte block (lines 473-477):
`for (; revIndex >= position; ++position)` shifting right by 2 and or-ing
`rv0` of the char at `position`.  Iteration count `revIndex - position`
after the initial `position++`. -/
def rvHangIter (seq : Nat → Nat) : Nat → Nat → Nat → Nat
  | _, b, 0 => b
  | position, b, n + 1 =>
      rvHangIter seq (position + 1) ((b >>> 2) ||| rv0 (seq position)) n

/-- The loop of the palindromic hanging-byte block (lines 506-510):
`for (; index < lastPos; --lastPos)` shifting the byte LEFT by 2 (an
`unsigned char` shift, so reduced mod 256) and or-ing `fw0` of the char at
`lastPos`, which on the first iteration is the same `lastPos` already
consumed before the loop.  Iteration count `lastPos - index`. -/
def palHangIter (seq : Nat → Nat) : Nat → Nat → Nat → Nat
  | _, b, 0 => b
  | lastPos, b, n + 1 =>
      palHangIter seq (lastPos - 1) ((((b <<< 2) % 256)) ||| fw0 (seq lastPos)) n

/-- The full-byte loop of the forward-wins branch (lines 409-429):
packs one byte from four forward chars, with the fused invalid check
before the fourth lookup, advancing `index` by 4 per byte.  Recursion is
on the iteration count `m_kmerSizeInBytes - m_hangingBasesExist -
outputIndex` of the `for` loop.  Returns the buffer with the final
`index` and `outputIndex`, or `none` for the `return NULL`. -/
def fwFinishLoop (seq : Nat → Nat) (fw : Nat → Nat) (index outputIndex : Nat) :
    Nat → Option ((Nat → Nat) × Nat × Nat)
  | 0 => some (fw, index, outputIndex)
  | n + 1 =>
      let b3 := fw0 (seq index) ||| fw1 (seq (index + 1)) ||| fw2 (seq (index + 2))
      if b3 = 255 ∨ fw3 (seq (index + 3)) = 255 then none
      else
        fwFinishLoop seq (upd fw outputIndex (b3 ||| fw3 (seq (index + 3))))
          (index + 4) (outputIndex + 1) n

/-- The full-byte loop of the reverse-wins branch (lines 449-468),
walking `revIndex` downward by 4 per byte through the `rv` tables. -/
def rvFinishLoop (seq : Nat → Nat) (rv : Nat → Nat) (revIndex outputIndex : Nat) :
    Nat → Option ((Nat → Nat) × Nat × Nat)
  | 0 => some (rv, revIndex, outputIndex)
  | n + 1 =>
      let b3 := rv0 (seq revIndex) ||| rv1 (seq (revIndex - 1)) ||| rv2 (seq (revIndex - 2))
      if b3 = 255 ∨ rv3 (seq (revIndex - 3)) = 255 then none
      else
        rvFinishLoop seq (upd rv outputIndex (b3 ||| rv3 (seq (revIndex - 3))))
          (revIndex - 4) (outputIndex + 1) n

/-- The full-byte loop of the palindromic branch (lines 487-501).  NOTE:
faithful to the source, the fourth lookup `fw3[sequence[index]]` does NOT
advance `index` (the source's missing `index++` on line 500), so `index`
moves by 3 per byte here. -/
def palFinishLoop (seq : Nat → Nat) (fw : Nat → Nat) (index outputIndex : Nat) :
    Nat → Option ((Nat → Nat) × Nat × Nat)
  | 0 => some (fw, index, outputIndex)
  | n + 1 =>
      let b3 := fw0 (seq index) ||| fw1 (seq (index + 1)) ||| fw2 (seq (index + 2))
      if b3 = 255 ∨ fw3 (seq (index + 3)) = 255 then none
      else
        palFinishLoop seq (upd fw outputIndex (b3 ||| fw3 (seq (index + 3))))
          (index + 3) (outputIndex + 1) n

/-- Forward-wins completion (lines 408-444): full-byte loop, then the
hanging byte `m_fw[outputIndex] = fw0[sequence[lastPos--]]; ...` when
`m_hangingBasesExist`, then `return m_fw`. -/
def fwFinish (rp : ReadsProcessor) (seq : Nat → Nat) (position : Nat)
    (fw : Nat → Nat) (index outputIndex : Nat) : Option (List Nat) :=
  match fwFinishLoop seq fw index outputIndex
      (rp.m_kmerSizeInBytes - rp.m_hangingBasesExist - outputIndex) with
  | none => none
  | some (fw2, index2, out2) =>
      if rp.m_hangingBasesExist ≠ 0 then
        let lastPos := position + rp.m_kmerSize - 1
        let b := fwHangIter seq (lastPos - 1) (fw0 (seq lastPos)) (lastPos - index2)
        if b = 255 then none
        else some (bufList (upd fw2 out2 b) rp.m_kmerSizeInBytes)
      else some (bufList fw2 rp.m_kmerSizeInBytes)

/-- Reverse-wins completion (lines 447-482): full-byte loop, then the
hanging byte built upward from `position`, then `return m_rv`. -/
def rvFinish (rp : ReadsProcessor) (seq : Nat → Nat) (position : Nat)
    (rv : Nat → Nat) (revIndex outputIndex : Nat) : Option (List Nat) :=
  match rvFinishLoop seq rv revIndex outputIndex
      (rp.m_kmerSizeInBytes - rp.m_hangingBasesExist - outputIndex) with
  | none => none
  | some (rv2, revIndex2, out2) =>
      if rp.m_hangingBasesExist ≠ 0 then
        let b := rvHangIter seq (position + 1) (rv0 (seq position)) (revIndex2 - position)
        if b = 255 then none
        else some (bufList (upd rv2 out2 b) rp.m_kmerSizeInBytes)
      else some (bufList rv2 rp.m_kmerSizeInBytes)

/-- Palindromic completion (lines 485-516).  Faithful to the source: the
entry `++outputIndex` of the `for` header runs even though the main loop
already left `outputIndex` equal to `m_halfSizeOfKmerInBytes`, the
full-byte loop advances `index` by only 3 per byte, and the hanging block
(guarded by `m_hangingBases`, not `m_hangingBasesExist`) or-s into
`m_fw[outputIndex]` after a left-shifting loop that re-reads `lastPos`. -/
def palFinish (rp : ReadsProcessor) (seq : Nat → Nat) (position : Nat)
    (fw : Nat → Nat) (index outputIndex : Nat) : Option (List Nat) :=
  match palFinishLoop seq fw index outputIndex
      (rp.m_kmerSizeInBytes - rp.m_hangingBasesExist - outputIndex) with
  | none => none
  | some (fw2, index2, out2) =>
      if rp.m_hangingBases ≠ 0 then
        let lastPos := position + rp.m_kmerSize - 1
        let b := palHangIter seq lastPos (fw2 out2 ||| fw0 (seq lastPos)) (lastPos - index2)
        if b = 255 then none
        else some (bufList (upd fw2 out2 b) rp.m_kmerSizeInBytes)
      else some (bufList fw2 rp.m_kmerSizeInBytes)

/-- The main comparison loop of `prepSeq` (lines 370-484): builds one
forward byte and one reverse byte, each with its fused invalid check, then
compares; on a strict inequality it branches to the corresponding
completion (entering it at `outputIndex + 1`, the `++outputIndex` of the
inner `for` headers); on a tie it continues; when all
`m_halfSizeOfKmerInBytes` bytes tie it falls through to the palindromic
completion (again at `outputIndex + 1`, now from the main `for`'s own
increment having already run).  Recursion on the remaining iteration
count. -/
def prepSeqLoop (rp : ReadsProcessor) (seq : Nat → Nat) (position : Nat)
    (fw rv : Nat → Nat) (index revIndex outputIndex : Nat) :
    Nat → Option (List Nat)
  | 0 => palFinish rp seq position fw index (outputIndex + 1)
  | n + 1 =>
      let fb3 := fw0 (seq index) ||| fw1 (seq (index + 1)) ||| fw2 (seq (index + 2))
      if fb3 = 255 ∨ fw3 (seq (index + 3)) = 255 then none
      else
        let fwB := fb3 ||| fw3 (seq (index + 3))
        let rb3 := rv0 (seq revIndex) ||| rv1 (seq (revIndex - 1)) ||| rv2 (seq (revIndex - 2))
        if rb3 = 255 ∨ rv3 (seq (revIndex - 3)) = 255 then none
        else
          let rvB := rb3 ||| rv3 (seq (revIndex - 3))
          if fwB < rvB then
            fwFinish rp seq position (upd fw outputIndex fwB) (index + 4) (outputIndex + 1)
          else if rvB < fwB then
            rvFinish rp seq position (upd rv outputIndex rvB) (revIndex - 4) (outputIndex + 1)
          else
            prepSeqLoop rp seq position (upd fw outputIndex fwB) (upd rv outputIndex rvB)
              (index + 4) (revIndex - 4) (outputIndex + 1) n

/-- `ReadsProcessor::prepSeq` (lines 357-516).  `none` models the
`return NULL`; `some bs` models returning a pointer to a scratch buffer
whose first `m_kmerSizeInBytes` bytes are `bs`. -/
def prepSeq (rp : ReadsProcessor) (seq : Nat → Nat) (position : Nat) :
    Option (List Nat) :=
  prepSeqLoop rp seq position (fun _ => 0) (fun _ => 0)
    position (position + rp.m_kmerSize - 1) 0 rp.m_halfSizeOfKmerInBytes

/-- `("ACGT")[c]` for a two-bit code. -/
def acgtChar : Nat → Char
  | 0 => 'A'
  | 1 => 'C'
  | 2 => 'G'
  | _ => 'T'

/-- The body of the `getBases` loop (lines 327-340): `currentOffset` is an
`int` that counts 3,2,1,0,-1 and is reset (with a byte advance) when it
reaches -1; each step extracts two bits and appends a letter.  Recursion on
the number of remaining characters (`m_kmerSize` at the top call). -/
def getBasesAux (c : Nat → Nat) : Nat → Int → Nat → List Char
  | _, _, 0 => []
  | currentIndex, currentOffset, n + 1 =>
      let ci := if currentOffset = -1 then currentIndex + 1 else currentIndex
      let co : Int := if currentOffset = -1 then 3 else currentOffset
      let ch := (c ci >>> (2 * co.toNat)) &&& 3
      acgtChar ch :: getBasesAux c ci (co - 1) n

/-- `ReadsProcessor::getBases` (lines 321-342), the debug decoder. -/
def getBases (rp : ReadsProcessor) (c : Nat → Nat) : List Char :=
  getBasesAux c 0 3 rp.m_kmerSize

/-!
Specification-side definitions, following the words of the spec
(sections 3 and 8), to be compared with the embedded code.
-/

/-- Modelled from the spec: `BaseCode`, the ordinal 2-bit code of a
nucleotide, case-insensitive, A=0 C=1 G=2 T=3; `255` stands for "no code"
(invalid character). -/
def baseCode (c : Nat) : Nat :=
  if c = 65 ∨ c = 97 then 0
  else if c = 67 ∨ c = 99 then 1
  else if c = 71 ∨ c = 103 then 2
  else if c = 84 ∨ c = 116 then 3
  else 255

/-- A window character is valid when it is one of `A C G T a c g t`. -/
def validBase (c : Nat) : Prop :=
  c = 65 ∨ c = 67 ∨ c = 71 ∨ c = 84 ∨ c = 97 ∨ c = 99 ∨ c = 103 ∨ c = 116

instance (c : Nat) : Decidable (validBase c) := by
  unfold validBase; infer_instance

/-- Modelled from the spec: pack a list of 2-bit codes into bytes, four
codes per byte, most-significant sub-position first; a final partial byte
holds its codes in the same convention with the unused low bits zero. -/
def packCodes : List Nat → List Nat
  | [] => []
  | [a] => [64 * a]
  | [a, b] => [64 * a + 16 * b]
  | [a, b, c] => [64 * a + 16 * b + 4 * c]
  | a :: b :: c :: d :: rest => (64 * a + 16 * b + 4 * c + d) :: packCodes rest

/-- Modelled from the spec: `pack(w)`, the packed bytes of a window. -/
def pack (w : List Nat) : List Nat :=
  packCodes (w.map baseCode)

/-- Modelled from the spec: the complement of a base character
(A↔T, C↔G, case-preserving; other bytes unchanged). -/
def compChar (c : Nat) : Nat :=
  if c = 65 then 84 else if c = 84 then 65
  else if c = 67 then 71 else if c = 71 then 67
  else if c = 97 then 116 else if c = 116 then 97
  else if c = 99 then 103 else if c = 103 then 99
  else c

/-- Modelled from the spec: `reverseComplement(w)`. -/
def revCompChars (w : List Nat) : List Nat :=
  (w.reverse).map compChar

/-- Big-endian unsigned (lexicographic) strict comparison of two byte
lists of equal length. -/
def bytesLt : List Nat → List Nat → Bool
  | [], _ => false
  | _ :: _, [] => false
  | a :: as, b :: bs => a < b || (a = b && bytesLt as bs)

/-- Modelled from the spec: the byte-wise minimum of two packed k-mers
under big-endian unsigned comparison. -/
def byteMin (a b : List Nat) : List Nat :=
  if bytesLt b a then b else a

/-- Upper-case a base character (other bytes unchanged). -/
def upperChar (c : Nat) : Nat :=
  if c = 97 then 65 else if c = 99 then 67
  else if c = 103 then 71 else if c = 116 then 84 else c

/-- The window of length `k` starting at `position`. -/
def windowOf (seq : Nat → Nat) (position k : Nat) : List Nat :=
  (List.range k).map fun i => seq (position + i)

/-- A sequence (0-indexed character access) built from a list, as used to
encode an independent string starting at position 0. -/
def seqOf (l : List Nat) : Nat → Nat :=
  fun i => l.getD i 0

/-- The 2-bit code of the window character at offset `i`. -/
def wcode (seq : Nat → Nat) (position i : Nat) : Nat :=
  fw3 (seq (position + i))

/-!  Characterisation of the eight lookup tables. -/

/-- Every byte is either invalid for all eight tables at once, or valid
with each table holding the (possibly complemented) code at its shift. -/
theorem tableVals (c : Nat) :
    (fw3 c = 255 ∧ fw0 c = 255 ∧ fw1 c = 255 ∧ fw2 c = 255 ∧
      rv0 c = 255 ∧ rv1 c = 255 ∧ rv2 c = 255 ∧ rv3 c = 255) ∨
    (fw3 c < 4 ∧ fw0 c = 64 * fw3 c ∧ fw1 c = 16 * fw3 c ∧ fw2 c = 4 * fw3 c ∧
      rv0 c = 64 * (3 - fw3 c) ∧ rv1 c = 16 * (3 - fw3 c) ∧
      rv2 c = 4 * (3 - fw3 c) ∧ rv3 c = 3 - fw3 c) := by
  unfold fw3 fw0 fw1 fw2 rv0 rv1 rv2 rv3
  split_ifs <;> simp

theorem validBase_iff (c : Nat) : validBase c ↔ fw3 c ≠ 255 := by
  unfold validBase fw3
  split_ifs <;> omega

theorem baseCode_eq_fw3 : baseCode = fw3 := by
  funext c
  unfold baseCode fw3
  split_ifs <;> rfl

/-- Tables are determined by `fw3`: code-equal bytes are table-equal. -/
theorem tbl_of_fw3 (a b : Nat) (h : fw3 a = fw3 b) :
    fw0 a = fw0 b ∧ fw1 a = fw1 b ∧ fw2 a = fw2 b ∧
    rv0 a = rv0 b ∧ rv1 a = rv1 b ∧ rv2 a = rv2 b ∧ rv3 a = rv3 b := by
  rcases tableVals a with ha | ha <;> rcases tableVals b with hb | hb <;>
    simp_all <;> omega

/-!  Bounded bitwise facts, settled by enumeration. -/

theorem lor_abs_left : ∀ x < 256, 255 ||| x = 255 := by decide

theorem lor_abs_right : ∀ x < 256, x ||| 255 = 255 := by decide

theorem lor_codes3 : ∀ a < 4, ∀ b < 4, ∀ c < 4,
    64 * a ||| 16 * b ||| 4 * c = 64 * a + 16 * b + 4 * c := by decide

theorem lor_codes2 : ∀ a < 4, ∀ b < 4, 64 * a ||| 16 * b ≤ 255 := by decide

theorem lor_codes4 : ∀ a < 4, ∀ b < 4, ∀ c < 4, ∀ d < 4,
    (64 * a + 16 * b + 4 * c) ||| d = 64 * a + 16 * b + 4 * c + d := by decide

theorem hang_step2 : ∀ x < 4, ∀ y < 4,
    (64 * x) >>> 2 ||| 64 * y = 64 * y + 16 * x := by decide

theorem hang_step3 : ∀ x < 4, ∀ y < 4, ∀ z < 4,
    (64 * y + 16 * x) >>> 2 ||| 64 * z = 64 * z + 16 * y + 4 * x := by decide

theorem extract_codes : ∀ a < 4, ∀ b < 4, ∀ c < 4, ∀ d < 4,
    ((64 * a + 16 * b + 4 * c + d) >>> 6) &&& 3 = a ∧
    ((64 * a + 16 * b + 4 * c + d) >>> 4) &&& 3 = b ∧
    ((64 * a + 16 * b + 4 * c + d) >>> 2) &&& 3 = c ∧
    ((64 * a + 16 * b + 4 * c + d) >>> 0) &&& 3 = d := by decide

theorem tblLe (c : Nat) :
    fw0 c ≤ 255 ∧ fw1 c ≤ 255 ∧ fw2 c ≤ 255 ∧
    rv0 c ≤ 255 ∧ rv1 c ≤ 255 ∧ rv2 c ≤ 255 := by
  rcases tableVals c with h | h <;> omega

/-- The fused invalid check of a forward full byte is sound: if neither the
accumulated three-char OR nor the fourth lookup is `0xFF`, all four
characters are valid, and the accumulated byte is their packed value. -/
theorem byteCheckFw (a b c d : Nat)
    (h : ¬(fw0 a ||| fw1 b ||| fw2 c = 255 ∨ fw3 d = 255)) :
    fw3 a < 4 ∧ fw3 b < 4 ∧ fw3 c < 4 ∧ fw3 d < 4 ∧
    fw0 a ||| fw1 b ||| fw2 c = 64 * fw3 a + 16 * fw3 b + 4 * fw3 c := by
  push_neg at h
  obtain ⟨h3, h4⟩ := h
  rcases tableVals a with ha | ha
  · exfalso
    apply h3
    rw [ha.2.1, lor_abs_left _ (by have := (tblLe b).2.1; omega),
      lor_abs_left _ (by have := (tblLe c).2.2.1; omega)]
  rcases tableVals b with hb | hb
  · exfalso
    apply h3
    rw [hb.2.2.1, lor_abs_right _ (by have := (tblLe a).1; omega),
      lor_abs_left _ (by have := (tblLe c).2.2.1; omega)]
  rcases tableVals c with hc | hc
  · exfalso
    apply h3
    rw [hc.2.2.2.1]
    apply lor_abs_right
    rw [ha.2.1, hb.2.2.1]
    have := lor_codes2 _ ha.1 _ hb.1
    omega
  rcases tableVals d with hd | hd
  · exact absurd hd.1 h4
  refine ⟨ha.1, hb.1, hc.1, hd.1, ?_⟩
  rw [ha.2.1, hb.2.2.1, hc.2.2.2.1]
  exact lor_codes3 _ ha.1 _ hb.1 _ hc.1

/-- The fused invalid check of a reverse full byte is likewise sound. -/
theorem byteCheckRv (a b c d : Nat)
    (h : ¬(rv0 a ||| rv1 b ||| rv2 c = 255 ∨ rv3 d = 255)) :
    fw3 a < 4 ∧ fw3 b < 4 ∧ fw3 c < 4 ∧ fw3 d < 4 ∧
    rv0 a ||| rv1 b ||| rv2 c =
      64 * (3 - fw3 a) + 16 * (3 - fw3 b) + 4 * (3 - fw3 c) := by
  push_neg at h
  obtain ⟨h3, h4⟩ := h
  rcases tableVals a with ha | ha
  · exfalso
    apply h3
    rw [ha.2.2.2.2.1, lor_abs_left _ (by have := (tblLe b).2.2.2.2.1; omega),
      lor_abs_left _ (by have := (tblLe c).2.2.2.2.2; omega)]
  rcases tableVals b with hb | hb
  · exfalso
    apply h3
    rw [hb.2.2.2.2.2.1, lor_abs_right _ (by have := (tblLe a).2.2.2.1; omega),
      lor_abs_left _ (by have := (tblLe c).2.2.2.2.2; omega)]
  rcases tableVals c with hc | hc
  · exfalso
    apply h3
    rw [hc.2.2.2.2.2.2.1]
    apply lor_abs_right
    rw [ha.2.2.2.2.1, hb.2.2.2.2.2.1]
    have := lor_codes2 _ (by omega : 3 - fw3 a < 4) _ (by omega : 3 - fw3 b < 4)
    omega
  rcases tableVals d with hd | hd
  · exact absurd hd.2.2.2.2.2.2.2 h4
  refine ⟨ha.1, hb.1, hc.1, hd.1, ?_⟩
  rw [ha.2.2.2.2.1, hb.2.2.2.2.2.1, hc.2.2.2.2.2.2.1]
  exact lor_codes3 _ (by omega) _ (by omega) _ (by omega)

/-!  Byte-level description of the packing, used to state correctness. -/

/-- The packed byte of four codes, most-significant sub-position first. -/
def fullByte (u : Nat → Nat) (j : Nat) : Nat :=
  64 * u (4 * j) + 16 * u (4 * j + 1) + 4 * u (4 * j + 2) + u (4 * j + 3)

/-- Byte `j` of the forward packing of a window of `k` codes `u`:
a full byte, or the partial final byte with its unused low bits zero. -/
def specByte (u : Nat → Nat) (k j : Nat) : Nat :=
  if 4 * j + 4 ≤ k then fullByte u j
  else if 4 * j + 3 = k then 64 * u (4 * j) + 16 * u (4 * j + 1) + 4 * u (4 * j + 2)
  else if 4 * j + 2 = k then 64 * u (4 * j) + 16 * u (4 * j + 1)
  else 64 * u (4 * j)

/-- The codes of the reverse complement of a window of `k` codes. -/
def rvu (u : Nat → Nat) (k : Nat) : Nat → Nat :=
  fun i => 3 - u (k - 1 - i)

theorem specByte_congr (u v : Nat → Nat) (k j : Nat)
    (h : ∀ i, i < k → u i = v i) (hj : 4 * j < k) :
    specByte u k j = specByte v k j := by
  unfold specByte fullByte
  split_ifs with h1 h2 h3 <;>
    rw [h (4 * j) (by omega)] <;>
    first
      | rfl
      | rw [h (4 * j + 1) (by omega)]
  · rw [h (4 * j + 2) (by omega), h (4 * j + 3) (by omega)]
  · rw [h (4 * j + 2) (by omega)]

theorem rangeMapGetD (n j : Nat) (f : Nat → Nat) (hj : j < n) :
    ((List.range n).map f).getD j 0 = f j := by
  rw [List.getD_eq_getElem?_getD, List.getElem?_map, List.getElem?_range hj]
  rfl

/-- The spec-side `packCodes` agrees with the byte-indexed description. -/
theorem packCodes_eq (cs : List Nat) :
    packCodes cs =
      (List.range ((cs.length + 3) / 4)).map
        (fun j => specByte (fun i => cs.getD i 0) cs.length j) := by
  induction cs using packCodes.induct with
  | case1 => rfl
  | case2 a => simp [packCodes, specByte, fullByte, List.range_succ]
  | case3 a b => simp [packCodes, specByte, fullByte, List.range_succ]
  | case4 a b c => simp [packCodes, specByte, fullByte, List.range_succ]
  | case5 a b c d rest ih =>
      show (64 * a + 16 * b + 4 * c + d) :: packCodes rest = _
      have hlen : ((a :: b :: c :: d :: rest).length + 3) / 4 =
          (rest.length + 3) / 4 + 1 := by simp; omega
      rw [hlen, List.range_succ_eq_map, List.map_cons, List.map_map]
      congr 1
      · simp [specByte, fullByte]
      · rw [ih]
        apply List.map_congr_left
        intro j _
        show specByte (fun i => rest.getD i 0) rest.length j =
          specByte (fun i => (a :: b :: c :: d :: rest).getD i 0)
            (a :: b :: c :: d :: rest).length (j + 1)
        unfold specByte fullByte
        have e0 : ∀ t, (a :: b :: c :: d :: rest).getD (4 * (j + 1) + t) 0 =
            rest.getD (4 * j + t) 0 := by
          intro t
          have : 4 * (j + 1) + t = (4 * j + t) + 4 := by omega
          rw [this]
          rfl
        have e0' : (a :: b :: c :: d :: rest).getD (4 * (j + 1)) 0 =
            rest.getD (4 * j) 0 := by
          have := e0 0
          simpa using this
        have el : (a :: b :: c :: d :: rest).length = rest.length + 4 := by simp
        simp only [el, e0', e0 1, e0 2, e0 3]
        split_ifs <;> omega

/-- `pack` of the window starting at `position` in byte-indexed form. -/
theorem pack_window (seq : Nat → Nat) (position k : Nat) :
    pack (windowOf seq position k) =
      (List.range ((k + 3) / 4)).map (specByte (wcode seq position) k) := by
  unfold pack windowOf
  rw [baseCode_eq_fw3, List.map_map, packCodes_eq]
  simp only [List.length_map, List.length_range]
  apply List.map_congr_left
  intro j hj
  apply specByte_congr
  · intro i hi
    rw [List.getD_eq_getElem?_getD, List.getElem?_map, List.getElem?_range hi]
    rfl
  · simp only [List.mem_range] at hj
    omega

theorem compChar_code (c : Nat) (hc : validBase c) :
    fw3 (compChar c) = 3 - fw3 c := by
  rcases hc with h | h | h | h | h | h | h | h <;> subst h <;> decide

theorem getD_map_lt (l : List Nat) (f : Nat → Nat) (i : Nat) (hi : i < l.length) :
    (l.map f).getD i 0 = f (l.getD i 0) := by
  rw [List.getD_eq_getElem?_getD, List.getD_eq_getElem?_getD, List.getElem?_map,
    List.getElem?_eq_getElem hi]
  rfl

theorem reverse_getD (l : List Nat) (i : Nat) (hi : i < l.length) :
    l.reverse.getD i 0 = l.getD (l.length - 1 - i) 0 := by
  rw [List.getD_eq_getElem?_getD, List.getD_eq_getElem?_getD,
    List.getElem?_eq_getElem (by simpa using hi),
    List.getElem?_eq_getElem (by omega),
    List.getElem_reverse]

/-- `pack` of the reverse complement of a valid window, byte-indexed. -/
theorem pack_rc_window (seq : Nat → Nat) (position k : Nat)
    (hv : ∀ i, i < k → validBase (seq (position + i))) :
    pack (revCompChars (windowOf seq position k)) =
      (List.range ((k + 3) / 4)).map (specByte (rvu (wcode seq position) k) k) := by
  unfold pack revCompChars
  rw [baseCode_eq_fw3, List.map_map, packCodes_eq]
  simp only [List.length_map, List.length_reverse, windowOf, List.length_range]
  apply List.map_congr_left
  intro j hj
  apply specByte_congr
  · intro i hi
    have hilen : i < ((List.range k).map (fun m => seq (position + m))).reverse.length := by
      simpa using hi
    have hlen2 : i < ((List.range k).map (fun m => seq (position + m))).length := by
      simpa using hi
    have e1 : ((List.range k).map (fun m => seq (position + m))).reverse.getD i 0 =
        seq (position + (k - 1 - i)) := by
      rw [reverse_getD _ _ hlen2]
      simp only [List.length_map, List.length_range]
      rw [List.getD_eq_getElem?_getD, List.getElem?_map, List.getElem?_range (by omega)]
      rfl
    show (((List.range k).map (fun m => seq (position + m))).reverse.map
        (fun c => fw3 (compChar c))).getD i 0 = rvu (wcode seq position) k i
    rw [getD_map_lt _ _ _ hilen, e1, compChar_code _ (hv _ (by omega))]
    rfl
  · simp only [List.mem_range] at hj
    omega

/-!  Lexicographic comparison helpers. -/

theorem bytesLt_firstdiff (n : Nat) (f g : Nat → Nat) (j0 : Nat)
    (hj : j0 < n) (hpre : ∀ m, m < j0 → f m = g m) (hlt : f j0 < g j0) :
    bytesLt ((List.range n).map f) ((List.range n).map g) = true := by
  induction n generalizing f g j0 with
  | zero => omega
  | succ m ih =>
      rw [List.range_succ_eq_map, List.map_cons, List.map_cons,
        List.map_map, List.map_map]
      show (decide (f 0 < g 0) || (decide (f 0 = g 0) && _)) = true
      cases j0 with
      | zero => simp [hlt]
      | succ j =>
          have h0 : f 0 = g 0 := hpre 0 (by omega)
          have : bytesLt ((List.range m).map (f ∘ Nat.succ))
              ((List.range m).map (g ∘ Nat.succ)) = true := by
            apply ih _ _ j (by omega)
            · intro p hp
              exact hpre (p + 1) (by omega)
            · exact hlt
          simpa [h0] using this

theorem bytesLt_irrefl (a : List Nat) : bytesLt a a = false := by
  induction a with
  | nil => rfl
  | cons x xs ih => simp [bytesLt, ih]

/-!  Value-level correctness of the completion loops on valid windows. -/

/-- On four valid characters, a forward full-byte group passes its fused
check and accumulates the packed byte. -/
theorem fwGroup (c0 c1 c2 c3 : Nat)
    (h0 : fw3 c0 < 4) (h1 : fw3 c1 < 4) (h2 : fw3 c2 < 4) (h3 : fw3 c3 < 4) :
    ¬(fw0 c0 ||| fw1 c1 ||| fw2 c2 = 255 ∨ fw3 c3 = 255) ∧
    (fw0 c0 ||| fw1 c1 ||| fw2 c2) ||| fw3 c3 =
      64 * fw3 c0 + 16 * fw3 c1 + 4 * fw3 c2 + fw3 c3 := by
  rcases tableVals c0 with ha | ha
  · omega
  rcases tableVals c1 with hb | hb
  · omega
  rcases tableVals c2 with hc | hc
  · omega
  rcases tableVals c3 with hd | hd
  · omega
  rw [ha.2.1, hb.2.2.1, hc.2.2.2.1]
  rw [lor_codes3 _ ha.1 _ hb.1 _ hc.1, lor_codes4 _ ha.1 _ hb.1 _ hc.1 _ h3]
  refine ⟨?_, rfl⟩
  push_neg
  constructor <;> omega

/-- On four valid characters, a reverse full-byte group passes its fused
check and accumulates the packed complement byte. -/
theorem rvGroup (c0 c1 c2 c3 : Nat)
    (h0 : fw3 c0 < 4) (h1 : fw3 c1 < 4) (h2 : fw3 c2 < 4) (h3 : fw3 c3 < 4) :
    ¬(rv0 c0 ||| rv1 c1 ||| rv2 c2 = 255 ∨ rv3 c3 = 255) ∧
    (rv0 c0 ||| rv1 c1 ||| rv2 c2) ||| rv3 c3 =
      64 * (3 - fw3 c0) + 16 * (3 - fw3 c1) + 4 * (3 - fw3 c2) + (3 - fw3 c3) := by
  rcases tableVals c0 with ha | ha
  · omega
  rcases tableVals c1 with hb | hb
  · omega
  rcases tableVals c2 with hc | hc
  · omega
  rcases tableVals c3 with hd | hd
  · omega
  rw [ha.2.2.2.2.1, hb.2.2.2.2.2.1, hc.2.2.2.2.2.2.1, hd.2.2.2.2.2.2.2]
  rw [lor_codes3 _ (by omega) _ (by omega) _ (by omega),
    lor_codes4 _ (by omega) _ (by omega) _ (by omega) _ (by omega)]
  refine ⟨?_, rfl⟩
  push_neg
  constructor <;> omega

theorem fwFinishLoop_val (k : Nat) (seq : Nat → Nat) (position : Nat)
    (hval : ∀ i, i < k → wcode seq position i < 4) :
    ∀ (n o : Nat) (fw : Nat → Nat), 4 * (o + n) ≤ k →
    fwFinishLoop seq fw (position + 4 * o) o n =
      some (fun j => if o ≤ j ∧ j < o + n then fullByte (wcode seq position) j else fw j,
        position + 4 * (o + n), o + n) := by
  intro n
  induction n with
  | zero =>
      intro o fw _
      simp only [fwFinishLoop, Nat.add_zero]
      have hfun : (fun j => if o ≤ j ∧ j < o then fullByte (wcode seq position) j
          else fw j) = fw := by
        funext j
        rw [if_neg (by omega)]
      rw [hfun]
  | succ n ih =>
      intro o fw h4
      have hg := fwGroup (seq (position + 4 * o)) (seq (position + 4 * o + 1))
        (seq (position + 4 * o + 2)) (seq (position + 4 * o + 3))
        (hval (4 * o) (by omega)) (hval (4 * o + 1) (by omega))
        (hval (4 * o + 2) (by omega)) (hval (4 * o + 3) (by omega))
      simp only [fwFinishLoop]
      rw [if_neg hg.1, hg.2]
      have e4 : position + 4 * o + 4 = position + 4 * (o + 1) := by omega
      rw [e4, ih (o + 1) _ (by omega)]
      rw [show o + 1 + n = o + (n + 1) from by omega]
      refine congrArg some
        (congrArg (fun f => (f, position + 4 * (o + (n + 1)), o + (n + 1))) ?_)
      funext j
      show (if o + 1 ≤ j ∧ j < o + (n + 1) then fullByte (wcode seq position) j
          else upd fw o _ j) =
        if o ≤ j ∧ j < o + (n + 1) then fullByte (wcode seq position) j else fw j
      by_cases hj1 : o + 1 ≤ j ∧ j < o + (n + 1)
      · rw [if_pos hj1, if_pos (by omega)]
      · rw [if_neg hj1]
        by_cases hj2 : j = o
        · subst hj2
          rw [if_pos (by omega)]
          unfold upd
          rw [if_pos rfl]
          rfl
        · unfold upd
          rw [if_neg hj2, if_neg (by omega)]

theorem rvFinishLoop_val (k : Nat) (seq : Nat → Nat) (position : Nat)
    (hval : ∀ i, i < k → wcode seq position i < 4) :
    ∀ (n o : Nat) (rv : Nat → Nat) (revIndex : Nat), 4 * (o + n) ≤ k →
    (n = 0 ∨ revIndex + 4 * o + 1 = position + k) →
    rvFinishLoop seq rv revIndex o n =
      some (fun j => if o ≤ j ∧ j < o + n then fullByte (rvu (wcode seq position) k) j
          else rv j,
        revIndex - 4 * n, o + n) := by
  intro n
  induction n with
  | zero =>
      intro o rv revIndex _ _
      simp only [rvFinishLoop, Nat.add_zero, Nat.mul_zero, Nat.sub_zero]
      have hfun : (fun j => if o ≤ j ∧ j < o then fullByte (rvu (wcode seq position) k) j
          else rv j) = rv := by
        funext j
        rw [if_neg (by omega)]
      rw [hfun]
  | succ n ih =>
      intro o rv revIndex h4 hrev0
      have hrev : revIndex + 4 * o + 1 = position + k := hrev0.resolve_left (by omega)
      have hg := rvGroup (seq (position + (k - 1 - 4 * o)))
        (seq (position + (k - 1 - 4 * o - 1))) (seq (position + (k - 1 - 4 * o - 2)))
        (seq (position + (k - 1 - 4 * o - 3)))
        (hval (k - 1 - 4 * o) (by omega)) (hval (k - 1 - 4 * o - 1) (by omega))
        (hval (k - 1 - 4 * o - 2) (by omega)) (hval (k - 1 - 4 * o - 3) (by omega))
      have er0 : seq revIndex = seq (position + (k - 1 - 4 * o)) := by
        rw [show revIndex = position + (k - 1 - 4 * o) from by omega]
      have er1 : seq (revIndex - 1) = seq (position + (k - 1 - 4 * o - 1)) := by
        rw [show revIndex - 1 = position + (k - 1 - 4 * o - 1) from by omega]
      have er2 : seq (revIndex - 2) = seq (position + (k - 1 - 4 * o - 2)) := by
        rw [show revIndex - 2 = position + (k - 1 - 4 * o - 2) from by omega]
      have er3 : seq (revIndex - 3) = seq (position + (k - 1 - 4 * o - 3)) := by
        rw [show revIndex - 3 = position + (k - 1 - 4 * o - 3) from by omega]
      simp only [rvFinishLoop]
      rw [er0, er1, er2, er3]
      rw [if_neg hg.1, hg.2]
      rw [ih (o + 1) _ (revIndex - 4) (by omega) (by omega)]
      rw [show o + 1 + n = o + (n + 1) from by omega]
      rw [show revIndex - 4 - 4 * n = revIndex - 4 * (n + 1) from by omega]
      refine congrArg some
        (congrArg (fun f => (f, revIndex - 4 * (n + 1), o + (n + 1))) ?_)
      funext j
      show (if o + 1 ≤ j ∧ j < o + (n + 1) then fullByte (rvu (wcode seq position) k) j
          else upd rv o _ j) =
        if o ≤ j ∧ j < o + (n + 1) then fullByte (rvu (wcode seq position) k) j else rv j
      by_cases hj1 : o + 1 ≤ j ∧ j < o + (n + 1)
      · rw [if_pos hj1, if_pos (by omega)]
      · rw [if_neg hj1]
        by_cases hj2 : j = o
        · subst hj2
          rw [if_pos (by omega)]
          unfold upd
          rw [if_pos rfl]
          unfold fullByte rvu
          have g1 : k - 1 - (4 * j + 1) = k - 1 - 4 * j - 1 := by omega
          have g2 : k - 1 - (4 * j + 2) = k - 1 - 4 * j - 2 := by omega
          have g3 : k - 1 - (4 * j + 3) = k - 1 - 4 * j - 3 := by omega
          rw [g1, g2, g3]
          rfl
        · unfold upd
          rw [if_neg hj2, if_neg (by omega)]

theorem fwHangIter_zero (seq : Nat → Nat) (lastPos b : Nat) :
    fwHangIter seq lastPos b 0 = b := rfl

theorem fwHangIter_one (seq : Nat → Nat) (lastPos b : Nat) :
    fwHangIter seq lastPos b 1 = (b >>> 2) ||| fw0 (seq lastPos) := rfl

theorem fwHangIter_two (seq : Nat → Nat) (lastPos b : Nat) :
    fwHangIter seq lastPos b 2 =
      (((b >>> 2) ||| fw0 (seq lastPos)) >>> 2) ||| fw0 (seq (lastPos - 1)) := rfl

theorem rvHangIter_zero (seq : Nat → Nat) (p b : Nat) :
    rvHangIter seq p b 0 = b := rfl

theorem rvHangIter_one (seq : Nat → Nat) (p b : Nat) :
    rvHangIter seq p b 1 = (b >>> 2) ||| rv0 (seq p) := rfl

theorem rvHangIter_two (seq : Nat → Nat) (p b : Nat) :
    rvHangIter seq p b 2 =
      (((b >>> 2) ||| rv0 (seq p)) >>> 2) ||| rv0 (seq (p + 1)) := rfl

/-- The forward hanging byte equals the spec's partial final byte. -/
theorem fwHang_val (k : Nat) (seq : Nat → Nat) (position : Nat)
    (hk : 3 < k) (hP : k % 4 ≠ 0)
    (hval : ∀ i, i < k → wcode seq position i < 4) :
    fwHangIter seq (position + k - 1 - 1) (fw0 (seq (position + k - 1))) (k % 4 - 1) =
      specByte (wcode seq position) k ((k + 3) / 4 - 1) ∧
    specByte (wcode seq position) k ((k + 3) / 4 - 1) ≠ 255 := by
  have hlast : position + k - 1 = position + (k - 1) := by omega
  have c1 : fw0 (seq (position + (k - 1))) = 64 * wcode seq position (k - 1) := by
    rcases tableVals (seq (position + (k - 1))) with h | h
    · have := hval (k - 1) (by omega)
      unfold wcode at this
      omega
    · exact h.2.1
  have c2 : fw0 (seq (position + (k - 2))) = 64 * wcode seq position (k - 2) := by
    rcases tableVals (seq (position + (k - 2))) with h2 | h2
    · have := hval (k - 2) (by omega)
      unfold wcode at this
      omega
    · exact h2.2.1
  have c3 : fw0 (seq (position + (k - 3))) = 64 * wcode seq position (k - 3) := by
    rcases tableVals (seq (position + (k - 3))) with h3 | h3
    · have := hval (k - 3) (by omega)
      unfold wcode at this
      omega
    · exact h3.2.1
  have hv1 : wcode seq position (k - 1) < 4 := hval _ (by omega)
  have hv2 : wcode seq position (k - 2) < 4 := hval _ (by omega)
  have hv3 : wcode seq position (k - 3) < 4 := hval _ (by omega)
  have hP3 : k % 4 = 1 ∨ k % 4 = 2 ∨ k % 4 = 3 := by omega
  rcases hP3 with h | h | h
  · rw [show k % 4 - 1 = 0 from by omega, fwHangIter_zero, hlast, c1]
    unfold specByte
    rw [if_neg (by omega), if_neg (by omega), if_neg (by omega),
      show 4 * ((k + 3) / 4 - 1) = k - 1 from by omega]
    exact ⟨rfl, by omega⟩
  · rw [show k % 4 - 1 = 1 from by omega, hlast,
      show position + (k - 1) - 1 = position + (k - 2) from by omega,
      fwHangIter_one, c1, c2, hang_step2 _ hv1 _ hv2]
    unfold specByte
    rw [if_neg (by omega), if_neg (by omega), if_pos (by omega),
      show 4 * ((k + 3) / 4 - 1) = k - 2 from by omega,
      show k - 2 + 1 = k - 1 from by omega]
    exact ⟨rfl, by omega⟩
  · rw [show k % 4 - 1 = 2 from by omega, hlast,
      show position + (k - 1) - 1 = position + (k - 2) from by omega,
      fwHangIter_two,
      show position + (k - 2) - 1 = position + (k - 3) from by omega,
      c1, c2, c3, hang_step2 _ hv1 _ hv2, hang_step3 _ hv1 _ hv2 _ hv3]
    unfold specByte
    rw [if_neg (by omega), if_pos (by omega),
      show 4 * ((k + 3) / 4 - 1) = k - 3 from by omega,
      show k - 3 + 1 = k - 2 from by omega, show k - 3 + 2 = k - 1 from by omega]
    exact ⟨rfl, by omega⟩

/-- The reverse hanging byte equals the spec's partial final byte of the
reverse-complement packing. -/
theorem rvHang_val (k : Nat) (seq : Nat → Nat) (position : Nat)
    (hk : 3 < k) (hP : k % 4 ≠ 0)
    (hval : ∀ i, i < k → wcode seq position i < 4) :
    rvHangIter seq (position + 1) (rv0 (seq position)) (k % 4 - 1) =
      specByte (rvu (wcode seq position) k) k ((k + 3) / 4 - 1) ∧
    specByte (rvu (wcode seq position) k) k ((k + 3) / 4 - 1) ≠ 255 := by
  have c0 : rv0 (seq position) = 64 * (3 - wcode seq position 0) := by
    rcases tableVals (seq position) with h | h
    · have := hval 0 (by omega)
      unfold wcode at this
      rw [Nat.add_zero] at this
      omega
    · unfold wcode
      rw [Nat.add_zero]
      exact h.2.2.2.2.1
  have c1 : rv0 (seq (position + 1)) = 64 * (3 - wcode seq position 1) := by
    rcases tableVals (seq (position + 1)) with h1 | h1
    · have := hval 1 (by omega)
      unfold wcode at this
      omega
    · exact h1.2.2.2.2.1
  have c2 : rv0 (seq (position + 1 + 1)) = 64 * (3 - wcode seq position 2) := by
    rcases tableVals (seq (position + 2)) with h2 | h2
    · have := hval 2 (by omega)
      unfold wcode at this
      omega
    · unfold wcode
      rw [show position + 1 + 1 = position + 2 from by omega]
      exact h2.2.2.2.2.1
  have hv0 : 3 - wcode seq position 0 < 4 := by omega
  have hv1 : 3 - wcode seq position 1 < 4 := by omega
  have hv2 : 3 - wcode seq position 2 < 4 := by omega
  have hP3 : k % 4 = 1 ∨ k % 4 = 2 ∨ k % 4 = 3 := by omega
  rcases hP3 with h | h | h
  · rw [show k % 4 - 1 = 0 from by omega, rvHangIter_zero, c0]
    unfold specByte rvu
    rw [if_neg (by omega), if_neg (by omega), if_neg (by omega),
      show 4 * ((k + 3) / 4 - 1) = k - 1 from by omega,
      show k - 1 - (k - 1) = 0 from by omega]
    exact ⟨rfl, by omega⟩
  · rw [show k % 4 - 1 = 1 from by omega, rvHangIter_one, c0, c1,
      hang_step2 _ hv0 _ hv1]
    unfold specByte rvu
    rw [if_neg (by omega), if_neg (by omega), if_pos (by omega),
      show 4 * ((k + 3) / 4 - 1) = k - 2 from by omega,
      show k - 1 - (k - 2) = 1 from by omega,
      show k - 1 - (k - 2 + 1) = 0 from by omega]
    exact ⟨rfl, by omega⟩
  · rw [show k % 4 - 1 = 2 from by omega, rvHangIter_two, c0, c1, c2,
      hang_step2 _ hv0 _ hv1, hang_step3 _ hv0 _ hv1 _ hv2]
    unfold specByte rvu
    rw [if_neg (by omega), if_pos (by omega),
      show 4 * ((k + 3) / 4 - 1) = k - 3 from by omega,
      show k - 1 - (k - 3) = 2 from by omega,
      show k - 1 - (k - 3 + 1) = 1 from by omega,
      show k - 1 - (k - 3 + 2) = 0 from by omega]
    exact ⟨rfl, by omega⟩

/-!  Geometry of the constructor. -/

theorem geomFacts (k : Nat) (hk : 3 < k) :
    (mkGeom k).m_kmerSize = k ∧
    (mkGeom k).m_kmerSizeInBytes = (k + 3) / 4 ∧
    (mkGeom k).m_halfSizeOfKmerInBytes = (k + 7) / 8 ∧
    (mkGeom k).m_hangingBases = k % 4 ∧
    (mkGeom k).m_hangingBasesExist = (if k % 4 = 0 then 0 else 1) := by
  have e : k % 4 % 4 = k % 4 := by omega
  unfold mkGeom
  by_cases h8 : k % 8 = 0
  · have h4 : k % 4 = 0 := by omega
    simp [h8, h4]
    omega
  · by_cases h4 : k % 4 = 0 <;> simp [h8, h4, e] <;> omega

/-- Forward-wins completion on a valid window: every byte from
`outputIndex` on is overwritten with the spec's forward packing. -/
theorem fwFinish_val (k : Nat) (seq : Nat → Nat) (position : Nat) (hk : 3 < k)
    (hval : ∀ i, i < k → wcode seq position i < 4) (o0 : Nat) (fw : Nat → Nat)
    (ho : o0 + (if k % 4 = 0 then 0 else 1) ≤ (k + 3) / 4) :
    fwFinish (mkGeom k) seq position fw (position + 4 * o0) o0 =
      some ((List.range ((k + 3) / 4)).map
        (fun j => if o0 ≤ j then specByte (wcode seq position) k j else fw j)) := by
  obtain ⟨hks, hB, hH, hhb, hhx⟩ := geomFacts k hk
  unfold fwFinish
  rw [hks, hB, hhx]
  by_cases hP : k % 4 = 0
  · rw [if_pos hP] at ho
    simp only [if_pos hP]
    rw [fwFinishLoop_val k seq position hval ((k + 3) / 4 - 0 - o0) o0 fw (by omega)]
    simp only [ne_eq, not_true_eq_false, if_neg, ite_false]
    refine congrArg some ?_
    unfold bufList
    apply List.map_congr_left
    intro j hj
    simp only [List.mem_range] at hj
    by_cases hoj : o0 ≤ j
    · rw [if_pos (show o0 ≤ j ∧ j < o0 + ((k + 3) / 4 - 0 - o0) from ⟨hoj, by omega⟩),
        if_pos hoj]
      unfold specByte
      rw [if_pos (by omega)]
    · rw [if_neg (show ¬(o0 ≤ j ∧ j < o0 + ((k + 3) / 4 - 0 - o0)) from by omega),
        if_neg hoj]
  · rw [if_neg hP] at ho
    simp only [if_neg hP]
    rw [fwFinishLoop_val k seq position hval ((k + 3) / 4 - 1 - o0) o0 fw (by omega)]
    simp only [ne_eq, one_ne_zero, not_false_eq_true, ite_true]
    have hcnt : position + k - 1 - (position + 4 * (o0 + ((k + 3) / 4 - 1 - o0))) =
        k % 4 - 1 := by omega
    rw [hcnt]
    obtain ⟨hh1, hh2⟩ := fwHang_val k seq position hk hP hval
    rw [hh1, if_neg hh2]
    refine congrArg some ?_
    unfold bufList
    apply List.map_congr_left
    intro j hj
    simp only [List.mem_range] at hj
    have hout : o0 + ((k + 3) / 4 - 1 - o0) = (k + 3) / 4 - 1 := by omega
    rw [hout]
    by_cases hj1 : j = (k + 3) / 4 - 1
    · subst hj1
      unfold upd
      rw [if_pos rfl, if_pos (by omega)]
    · unfold upd
      simp only [if_neg hj1]
      by_cases hoj : o0 ≤ j
      · rw [if_pos (show o0 ≤ j ∧ j < (k + 3) / 4 - 1 from ⟨hoj, by omega⟩),
          if_pos hoj]
        unfold specByte
        rw [if_pos (by omega)]
      · rw [if_neg (show ¬(o0 ≤ j ∧ j < (k + 3) / 4 - 1) from by omega), if_neg hoj]

/-- Reverse-wins completion on a valid window: every byte from
`outputIndex` on is overwritten with the spec's reverse-complement
packing. -/
theorem rvFinish_val (k : Nat) (seq : Nat → Nat) (position : Nat) (hk : 3 < k)
    (hval : ∀ i, i < k → wcode seq position i < 4) (o0 : Nat) (rv : Nat → Nat)
    (revIndex : Nat)
    (ho : o0 + (if k % 4 = 0 then 0 else 1) ≤ (k + 3) / 4)
    (hrev : revIndex + 4 * o0 + 1 = position + k ∨ (k % 4 = 0 ∧ o0 = (k + 3) / 4)) :
    rvFinish (mkGeom k) seq position rv revIndex o0 =
      some ((List.range ((k + 3) / 4)).map
        (fun j => if o0 ≤ j then specByte (rvu (wcode seq position) k) k j else rv j)) := by
  obtain ⟨hks, hB, hH, hhb, hhx⟩ := geomFacts k hk
  unfold rvFinish
  rw [hB, hhx]
  by_cases hP : k % 4 = 0
  · rw [if_pos hP] at ho
    simp only [if_pos hP]
    rw [rvFinishLoop_val k seq position hval ((k + 3) / 4 - 0 - o0) o0 rv revIndex
      (by omega) (by rcases hrev with h | h; exact Or.inr h; exact Or.inl (by omega))]
    simp only [ne_eq, not_true_eq_false, if_neg, ite_false]
    refine congrArg some ?_
    unfold bufList
    apply List.map_congr_left
    intro j hj
    simp only [List.mem_range] at hj
    by_cases hoj : o0 ≤ j
    · rw [if_pos (show o0 ≤ j ∧ j < o0 + ((k + 3) / 4 - 0 - o0) from ⟨hoj, by omega⟩),
        if_pos hoj]
      unfold specByte
      rw [if_pos (by omega)]
    · rw [if_neg (show ¬(o0 ≤ j ∧ j < o0 + ((k + 3) / 4 - 0 - o0)) from by omega),
        if_neg hoj]
  · rw [if_neg hP] at ho
    have hrev2 : revIndex + 4 * o0 + 1 = position + k := hrev.resolve_right (by omega)
    simp only [if_neg hP]
    rw [rvFinishLoop_val k seq position hval ((k + 3) / 4 - 1 - o0) o0 rv revIndex
      (by omega) (Or.inr hrev2)]
    simp only [ne_eq, one_ne_zero, not_false_eq_true, ite_true]
    have hcnt : revIndex - 4 * ((k + 3) / 4 - 1 - o0) - position = k % 4 - 1 := by
      clear hrev
      omega
    rw [hcnt]
    obtain ⟨hh1, hh2⟩ := rvHang_val k seq position hk hP hval
    rw [hh1, if_neg hh2]
    refine congrArg some ?_
    unfold bufList
    apply List.map_congr_left
    intro j hj
    simp only [List.mem_range] at hj
    have hout : o0 + ((k + 3) / 4 - 1 - o0) = (k + 3) / 4 - 1 := by omega
    rw [hout]
    by_cases hj1 : j = (k + 3) / 4 - 1
    · subst hj1
      unfold upd
      rw [if_pos rfl, if_pos (by omega)]
    · unfold upd
      simp only [if_neg hj1]
      by_cases hoj : o0 ≤ j
      · rw [if_pos (show o0 ≤ j ∧ j < (k + 3) / 4 - 1 from ⟨hoj, by omega⟩),
          if_pos hoj]
        unfold specByte
        rw [if_pos (by omega)]
      · rw [if_neg (show ¬(o0 ≤ j ∧ j < (k + 3) / 4 - 1) from by omega), if_neg hoj]

/-!  The main comparison loop. -/

/-- The scratch buffer after the first `o` bytes have been stored:
bytes below `o` hold `g`, everything else is still the `memset` zero. -/
def prefBuf (g : Nat → Nat) (o : Nat) : Nat → Nat :=
  fun j => if j < o then g j else 0

theorem prefBuf_zero (g : Nat → Nat) : prefBuf g 0 = fun _ => 0 := by
  funext j
  unfold prefBuf
  rw [if_neg (by omega)]

theorem prefBuf_succ (g : Nat → Nat) (o v : Nat) (hv : v = g o) :
    upd (prefBuf g o) o v = prefBuf g (o + 1) := by
  funext j
  unfold upd prefBuf
  by_cases hj : j = o
  · subst hj
    rw [if_pos rfl, if_pos (by omega), hv]
  · rw [if_neg hj]
    by_cases hj2 : j < o
    · rw [if_pos hj2, if_pos (by omega)]
    · rw [if_neg hj2, if_neg (by omega)]

/-- One iteration of the main loop on a valid window: both fused checks
pass and the two bytes compared are the spec's forward byte and
reverse-complement byte at the current index. -/
theorem prepSeqLoop_step (k : Nat) (seq : Nat → Nat) (position : Nat)
    (hval : ∀ i, i < k → wcode seq position i < 4)
    (n o : Nat) (fw rv : Nat → Nat) (revIndex : Nat)
    (h4 : 4 * o + 4 ≤ k) (hrev : revIndex + 4 * o + 1 = position + k) :
    prepSeqLoop (mkGeom k) seq position fw rv (position + 4 * o) revIndex o (n + 1) =
      (if specByte (wcode seq position) k o < specByte (rvu (wcode seq position) k) k o then
        fwFinish (mkGeom k) seq position
          (upd fw o (specByte (wcode seq position) k o)) (position + 4 * (o + 1)) (o + 1)
      else if specByte (rvu (wcode seq position) k) k o < specByte (wcode seq position) k o then
        rvFinish (mkGeom k) seq position
          (upd rv o (specByte (rvu (wcode seq position) k) k o)) (revIndex - 4) (o + 1)
      else
        prepSeqLoop (mkGeom k) seq position
          (upd fw o (specByte (wcode seq position) k o))
          (upd rv o (specByte (rvu (wcode seq position) k) k o))
          (position + 4 * (o + 1)) (revIndex - 4) (o + 1) n) := by
  have hgF := fwGroup (seq (position + 4 * o)) (seq (position + 4 * o + 1))
    (seq (position + 4 * o + 2)) (seq (position + 4 * o + 3))
    (hval (4 * o) (by omega)) (hval (4 * o + 1) (by omega))
    (hval (4 * o + 2) (by omega)) (hval (4 * o + 3) (by omega))
  have hgR := rvGroup (seq (position + (k - 1 - 4 * o)))
    (seq (position + (k - 1 - 4 * o - 1))) (seq (position + (k - 1 - 4 * o - 2)))
    (seq (position + (k - 1 - 4 * o - 3)))
    (hval (k - 1 - 4 * o) (by omega)) (hval (k - 1 - 4 * o - 1) (by omega))
    (hval (k - 1 - 4 * o - 2) (by omega)) (hval (k - 1 - 4 * o - 3) (by omega))
  have er0 : seq revIndex = seq (position + (k - 1 - 4 * o)) := by
    rw [show revIndex = position + (k - 1 - 4 * o) from by omega]
  have er1 : seq (revIndex - 1) = seq (position + (k - 1 - 4 * o - 1)) := by
    rw [show revIndex - 1 = position + (k - 1 - 4 * o - 1) from by omega]
  have er2 : seq (revIndex - 2) = seq (position + (k - 1 - 4 * o - 2)) := by
    rw [show revIndex - 2 = position + (k - 1 - 4 * o - 2) from by omega]
  have er3 : seq (revIndex - 3) = seq (position + (k - 1 - 4 * o - 3)) := by
    rw [show revIndex - 3 = position + (k - 1 - 4 * o - 3) from by omega]
  have hFb : specByte (wcode seq position) k o =
      64 * fw3 (seq (position + 4 * o)) + 16 * fw3 (seq (position + 4 * o + 1)) +
        4 * fw3 (seq (position + 4 * o + 2)) + fw3 (seq (position + 4 * o + 3)) := by
    unfold specByte
    rw [if_pos (by omega)]
    rfl
  have hRb : specByte (rvu (wcode seq position) k) k o =
      64 * (3 - fw3 (seq (position + (k - 1 - 4 * o)))) +
        16 * (3 - fw3 (seq (position + (k - 1 - 4 * o - 1)))) +
        4 * (3 - fw3 (seq (position + (k - 1 - 4 * o - 2)))) +
        (3 - fw3 (seq (position + (k - 1 - 4 * o - 3)))) := by
    unfold specByte
    rw [if_pos (by omega)]
    unfold fullByte rvu
    rw [show k - 1 - (4 * o + 1) = k - 1 - 4 * o - 1 from by omega,
      show k - 1 - (4 * o + 2) = k - 1 - 4 * o - 2 from by omega,
      show k - 1 - (4 * o + 3) = k - 1 - 4 * o - 3 from by omega]
    rfl
  simp only [prepSeqLoop]
  rw [er0, er1, er2, er3, if_neg hgF.1, if_neg hgR.1, hgF.2, hgR.2,
    show position + 4 * o + 4 = position + 4 * (o + 1) from by omega,
    ← hFb, ← hRb]

/-- On a window whose compared prefix ties throughout, the main loop falls
through to the palindromic completion with the forward prefix stored. -/
theorem prepSeqLoop_tie (k : Nat) (seq : Nat → Nat) (position : Nat) (hk : 3 < k)
    (hval : ∀ i, i < k → wcode seq position i < 4)
    (htie : ∀ j, j < (k + 7) / 8 →
      specByte (wcode seq position) k j = specByte (rvu (wcode seq position) k) k j) :
    ∀ (n o : Nat) (fw rv : Nat → Nat) (revIndex : Nat),
    o + n = (k + 7) / 8 →
    (n = 0 ∨ revIndex + 4 * o + 1 = position + k) →
    fw = prefBuf (specByte (wcode seq position) k) o →
    rv = prefBuf (specByte (rvu (wcode seq position) k) k) o →
    prepSeqLoop (mkGeom k) seq position fw rv (position + 4 * o) revIndex o n =
      palFinish (mkGeom k) seq position
        (prefBuf (specByte (wcode seq position) k) ((k + 7) / 8))
        (position + 4 * ((k + 7) / 8)) ((k + 7) / 8 + 1) := by
  intro n
  induction n with
  | zero =>
      intro o fw rv revIndex hoH _ hfw _
      subst hfw
      rw [show o = (k + 7) / 8 from by omega]
      rfl
  | succ n ih =>
      intro o fw rv revIndex hoH hrev0 hfw hrv
      have hH4 : 4 * ((k + 7) / 8) ≤ k := by omega
      have hrev : revIndex + 4 * o + 1 = position + k := hrev0.resolve_left (by omega)
      rw [prepSeqLoop_step k seq position hval n o fw rv revIndex (by omega) hrev]
      have heq : specByte (wcode seq position) k o =
          specByte (rvu (wcode seq position) k) k o := htie o (by omega)
      rw [if_neg (by omega), if_neg (by omega)]
      rw [hfw, hrv, prefBuf_succ _ _ _ rfl, prefBuf_succ _ _ _ rfl]
      exact ih (o + 1) _ _ (revIndex - 4) (by omega) (by omega) rfl rfl

/-- On a window whose first differing compared byte favours the forward
strand, `prepSeq`'s main loop returns the full forward packing. -/
theorem prepSeqLoop_fwwin (k : Nat) (seq : Nat → Nat) (position : Nat) (hk : 3 < k)
    (hval : ∀ i, i < k → wcode seq position i < 4) (j0 : Nat) (hj0 : j0 < (k + 7) / 8)
    (hpre : ∀ j, j < j0 →
      specByte (wcode seq position) k j = specByte (rvu (wcode seq position) k) k j)
    (hlt : specByte (wcode seq position) k j0 < specByte (rvu (wcode seq position) k) k j0) :
    ∀ (n o : Nat) (fw rv : Nat → Nat) (revIndex : Nat),
    o + n = (k + 7) / 8 →
    (n = 0 ∨ revIndex + 4 * o + 1 = position + k) →
    o ≤ j0 →
    fw = prefBuf (specByte (wcode seq position) k) o →
    prepSeqLoop (mkGeom k) seq position fw rv (position + 4 * o) revIndex o n =
      some ((List.range ((k + 3) / 4)).map (specByte (wcode seq position) k)) := by
  intro n
  induction n with
  | zero =>
      intro o fw rv revIndex hoH _ hoj _
      omega
  | succ n ih =>
      intro o fw rv revIndex hoH hrev0 hoj hfw
      have hH4 : 4 * ((k + 7) / 8) ≤ k := by omega
      have hHB : (k + 7) / 8 + (if k % 4 = 0 then 0 else 1) ≤ (k + 3) / 4 := by
        by_cases h : k % 4 = 0 <;> simp [h] <;> omega
      have hrev : revIndex + 4 * o + 1 = position + k := hrev0.resolve_left (by omega)
      rw [prepSeqLoop_step k seq position hval n o fw rv revIndex (by omega) hrev]
      by_cases hcase : o = j0
      · subst hcase
        rw [if_pos hlt, hfw, prefBuf_succ _ _ _ rfl]
        rw [fwFinish_val k seq position hk hval (o + 1) _ (by omega)]
        refine congrArg some ?_
        apply List.map_congr_left
        intro j hj
        simp only [List.mem_range] at hj
        by_cases hj1 : o + 1 ≤ j
        · rw [if_pos hj1]
        · rw [if_neg hj1]
          unfold prefBuf
          rw [if_pos (by omega)]
      · have heq : specByte (wcode seq position) k o =
            specByte (rvu (wcode seq position) k) k o := hpre o (by omega)
        rw [if_neg (by omega), if_neg (by omega)]
        rw [hfw, prefBuf_succ _ _ _ rfl]
        exact ih (o + 1) _ _ (revIndex - 4) (by omega) (by omega) (by omega) rfl

/-- On a window whose first differing compared byte favours the
reverse-complement strand, the main loop returns the full
reverse-complement packing. -/
theorem prepSeqLoop_rvwin (k : Nat) (seq : Nat → Nat) (position : Nat) (hk : 3 < k)
    (hval : ∀ i, i < k → wcode seq position i < 4) (j0 : Nat) (hj0 : j0 < (k + 7) / 8)
    (hpre : ∀ j, j < j0 →
      specByte (wcode seq position) k j = specByte (rvu (wcode seq position) k) k j)
    (hlt : specByte (rvu (wcode seq position) k) k j0 < specByte (wcode seq position) k j0) :
    ∀ (n o : Nat) (fw rv : Nat → Nat) (revIndex : Nat),
    o + n = (k + 7) / 8 →
    (n = 0 ∨ revIndex + 4 * o + 1 = position + k) →
    o ≤ j0 →
    rv = prefBuf (specByte (rvu (wcode seq position) k) k) o →
    prepSeqLoop (mkGeom k) seq position fw rv (position + 4 * o) revIndex o n =
      some ((List.range ((k + 3) / 4)).map (specByte (rvu (wcode seq position) k) k)) := by
  intro n
  induction n with
  | zero =>
      intro o fw rv revIndex hoH _ hoj _
      omega
  | succ n ih =>
      intro o fw rv revIndex hoH hrev0 hoj hrv
      have hH4 : 4 * ((k + 7) / 8) ≤ k := by omega
      have hHB : (k + 7) / 8 + (if k % 4 = 0 then 0 else 1) ≤ (k + 3) / 4 := by
        by_cases h : k % 4 = 0 <;> simp [h] <;> omega
      have hrev : revIndex + 4 * o + 1 = position + k := hrev0.resolve_left (by omega)
      rw [prepSeqLoop_step k seq position hval n o fw rv revIndex (by omega) hrev]
      by_cases hcase : o = j0
      · subst hcase
        rw [if_neg (by omega), if_pos hlt, hrv, prefBuf_succ _ _ _ rfl]
        rw [rvFinish_val k seq position hk hval (o + 1) _ (revIndex - 4) (by omega)
          (by omega)]
        refine congrArg some ?_
        apply List.map_congr_left
        intro j hj
        simp only [List.mem_range] at hj
        by_cases hj1 : o + 1 ≤ j
        · rw [if_pos hj1]
        · rw [if_neg hj1]
          unfold prefBuf
          rw [if_pos (by omega)]
      · have heq : specByte (wcode seq position) k o =
            specByte (rvu (wcode seq position) k) k o := hpre o (by omega)
        rw [if_neg (by omega), if_neg (by omega)]
        rw [hrv, prefBuf_succ _ _ _ rfl]
        exact ih (o + 1) _ _ (revIndex - 4) (by omega) (by omega) (by omega) rfl

/-!  `prepSeq`-level consequences. -/

theorem prepSeq_fwwin (k : Nat) (seq : Nat → Nat) (position : Nat) (hk : 3 < k)
    (hval : ∀ i, i < k → wcode seq position i < 4) (j0 : Nat) (hj0 : j0 < (k + 7) / 8)
    (hpre : ∀ j, j < j0 →
      specByte (wcode seq position) k j = specByte (rvu (wcode seq position) k) k j)
    (hlt : specByte (wcode seq position) k j0 < specByte (rvu (wcode seq position) k) k j0) :
    prepSeq (mkGeom k) seq position =
      some ((List.range ((k + 3) / 4)).map (specByte (wcode seq position) k)) := by
  obtain ⟨hks, hB, hH, hhb, hhx⟩ := geomFacts k hk
  unfold prepSeq
  rw [hks, hH]
  have := prepSeqLoop_fwwin k seq position hk hval j0 hj0 hpre hlt ((k + 7) / 8) 0
    (fun _ => 0) (fun _ => 0) (position + k - 1) (by omega) (by omega) (by omega)
    (prefBuf_zero _).symm
  rw [show position + 4 * 0 = position from by omega] at this
  exact this

theorem prepSeq_rvwin (k : Nat) (seq : Nat → Nat) (position : Nat) (hk : 3 < k)
    (hval : ∀ i, i < k → wcode seq position i < 4) (j0 : Nat) (hj0 : j0 < (k + 7) / 8)
    (hpre : ∀ j, j < j0 →
      specByte (wcode seq position) k j = specByte (rvu (wcode seq position) k) k j)
    (hlt : specByte (rvu (wcode seq position) k) k j0 < specByte (wcode seq position) k j0) :
    prepSeq (mkGeom k) seq position =
      some ((List.range ((k + 3) / 4)).map (specByte (rvu (wcode seq position) k) k)) := by
  obtain ⟨hks, hB, hH, hhb, hhx⟩ := geomFacts k hk
  unfold prepSeq
  rw [hks, hH]
  have := prepSeqLoop_rvwin k seq position hk hval j0 hj0 hpre hlt ((k + 7) / 8) 0
    (fun _ => 0) (fun _ => 0) (position + k - 1) (by omega) (by omega) (by omega)
    (prefBuf_zero _).symm
  rw [show position + 4 * 0 = position from by omega] at this
  exact this

theorem prepSeq_tie (k : Nat) (seq : Nat → Nat) (position : Nat) (hk : 3 < k)
    (hval : ∀ i, i < k → wcode seq position i < 4)
    (htie : ∀ j, j < (k + 7) / 8 →
      specByte (wcode seq position) k j = specByte (rvu (wcode seq position) k) k j) :
    prepSeq (mkGeom k) seq position =
      palFinish (mkGeom k) seq position
        (prefBuf (specByte (wcode seq position) k) ((k + 7) / 8))
        (position + 4 * ((k + 7) / 8)) ((k + 7) / 8 + 1) := by
  obtain ⟨hks, hB, hH, hhb, hhx⟩ := geomFacts k hk
  unfold prepSeq
  rw [hks, hH]
  have := prepSeqLoop_tie k seq position hk hval htie ((k + 7) / 8) 0
    (fun _ => 0) (fun _ => 0) (position + k - 1) (by omega) (by omega)
    (prefBuf_zero _).symm (prefBuf_zero _).symm
  rw [show position + 4 * 0 = position from by omega] at this
  exact this

/-!  A full tie across the compared prefix forces a reverse-complement
palindrome, and a palindrome ties on every byte. -/

theorem tie_half (k : Nat) (seq : Nat → Nat) (position : Nat) (hk : 3 < k)
    (hval : ∀ i, i < k → wcode seq position i < 4)
    (htie : ∀ j, j < (k + 7) / 8 →
      specByte (wcode seq position) k j = specByte (rvu (wcode seq position) k) k j) :
    ∀ q r, r < 4 → 4 * q + r < 4 * ((k + 7) / 8) → 4 * q + r < k →
    wcode seq position (4 * q + r) = 3 - wcode seq position (k - 1 - (4 * q + r)) := by
  intro q r hr4 hiH hik
  have hH4 : 4 * ((k + 7) / 8) ≤ k := by omega
  have hbyte := htie q (by omega)
  have hfull : 4 * q + 4 ≤ k := by omega
  unfold specByte at hbyte
  rw [if_pos hfull, if_pos hfull] at hbyte
  unfold fullByte rvu at hbyte
  have b0 := hval (4 * q) (by omega)
  have b1 := hval (4 * q + 1) (by omega)
  have b2 := hval (4 * q + 2) (by omega)
  have b3 := hval (4 * q + 3) (by omega)
  have c0 := hval (k - 1 - 4 * q) (by omega)
  have c1 := hval (k - 1 - (4 * q + 1)) (by omega)
  have c2 := hval (k - 1 - (4 * q + 2)) (by omega)
  have c3 := hval (k - 1 - (4 * q + 3)) (by omega)
  rcases (show r = 0 ∨ r = 1 ∨ r = 2 ∨ r = 3 from by omega) with h | h | h | h <;>
    subst h
  · rw [show 4 * q + 0 = 4 * q from by omega]
    omega
  · omega
  · omega
  · omega

theorem tie_palindrome (k : Nat) (seq : Nat → Nat) (position : Nat) (hk : 3 < k)
    (hval : ∀ i, i < k → wcode seq position i < 4)
    (htie : ∀ j, j < (k + 7) / 8 →
      specByte (wcode seq position) k j = specByte (rvu (wcode seq position) k) k j) :
    ∀ i, i < k → wcode seq position i = 3 - wcode seq position (k - 1 - i) := by
  intro i hik
  have hk8 : k ≤ 8 * ((k + 7) / 8) := by omega
  by_cases hcase : i < 4 * ((k + 7) / 8)
  · have := tie_half k seq position hk hval htie (i / 4) (i % 4) (by omega)
      (by omega) (by omega)
    rw [show 4 * (i / 4) + i % 4 = i from by omega] at this
    exact this
  · have hi2 : k - 1 - i < 4 * ((k + 7) / 8) := by omega
    have := tie_half k seq position hk hval htie ((k - 1 - i) / 4) ((k - 1 - i) % 4)
      (by omega) (by omega) (by omega)
    rw [show 4 * ((k - 1 - i) / 4) + (k - 1 - i) % 4 = k - 1 - i from by omega,
      show k - 1 - (k - 1 - i) = i from by omega] at this
    have hvi := hval i hik
    have hvr := hval (k - 1 - i) (by omega)
    omega

theorem palindrome_bytes (k : Nat) (seq : Nat → Nat) (position : Nat)
    (hpal : ∀ i, i < k → wcode seq position i = 3 - wcode seq position (k - 1 - i)) :
    ∀ j, 4 * j < k →
    specByte (wcode seq position) k j = specByte (rvu (wcode seq position) k) k j := by
  intro j hj
  unfold specByte fullByte rvu
  split_ifs with h1 h2 h3
  · rw [hpal (4 * j) (by omega), hpal (4 * j + 1) (by omega),
      hpal (4 * j + 2) (by omega), hpal (4 * j + 3) (by omega)]
  · rw [hpal (4 * j) (by omega), hpal (4 * j + 1) (by omega),
      hpal (4 * j + 2) (by omega)]
  · rw [hpal (4 * j) (by omega), hpal (4 * j + 1) (by omega)]
  · rw [hpal (4 * j) (by omega)]

/-- If the two packings differ, some byte of the compared prefix differs,
and there is a least such byte. -/
theorem exists_firstdiff (k : Nat) (seq : Nat → Nat) (position : Nat) (hk : 3 < k)
    (hval : ∀ i, i < k → wcode seq position i < 4)
    (hne : (List.range ((k + 3) / 4)).map (specByte (wcode seq position) k) ≠
      (List.range ((k + 3) / 4)).map (specByte (rvu (wcode seq position) k) k)) :
    ∃ j0, j0 < (k + 7) / 8 ∧
      specByte (wcode seq position) k j0 ≠ specByte (rvu (wcode seq position) k) k j0 ∧
      ∀ j, j < j0 →
        specByte (wcode seq position) k j = specByte (rvu (wcode seq position) k) k j := by
  have hex : ∃ j, j < (k + 7) / 8 ∧
      specByte (wcode seq position) k j ≠ specByte (rvu (wcode seq position) k) k j := by
    by_contra hno
    push_neg at hno
    apply hne
    apply List.map_congr_left
    intro j hj
    simp only [List.mem_range] at hj
    exact palindrome_bytes k seq position
      (tie_palindrome k seq position hk hval hno) j (by omega)
  refine ⟨Nat.find hex, (Nat.find_spec hex).1, (Nat.find_spec hex).2, ?_⟩
  intro j hj
  have := Nat.find_min hex hj
  have hjH : j < (k + 7) / 8 := by
    have := (Nat.find_spec hex).1
    omega
  by_contra hcon
  exact this ⟨hjH, hcon⟩

/-!  The palindromic completion depends on the window only through the
2-bit codes of its characters: two windows with pointwise equal codes
drive it identically. -/

theorem palHangIter_congr (k : Nat) (seq1 seq2 : Nat → Nat) (pos1 pos2 : Nat)
    (hcode : ∀ i, i < k → fw3 (seq1 (pos1 + i)) = fw3 (seq2 (pos2 + i))) :
    ∀ (cnt e b : Nat), cnt ≤ e + 1 → e < k →
    palHangIter seq1 (pos1 + e) b cnt = palHangIter seq2 (pos2 + e) b cnt := by
  intro cnt
  induction cnt with
  | zero => intro e b _ _; rfl
  | succ n ih =>
      intro e b hce hek
      show palHangIter seq1 (pos1 + e - 1) _ n = palHangIter seq2 (pos2 + e - 1) _ n
      rw [(tbl_of_fw3 _ _ (hcode e hek)).1]
      by_cases he : e = 0
      · subst he
        have hn : n = 0 := by omega
        subst hn
        rfl
      · rw [show pos1 + e - 1 = pos1 + (e - 1) from by omega,
          show pos2 + e - 1 = pos2 + (e - 1) from by omega]
        exact ih (e - 1) _ (by omega) (by omega)

theorem palFinishLoop_congr (k : Nat) (seq1 seq2 : Nat → Nat) (pos1 pos2 : Nat)
    (hcode : ∀ i, i < k → fw3 (seq1 (pos1 + i)) = fw3 (seq2 (pos2 + i))) :
    ∀ (n d o : Nat) (fw : Nat → Nat), (n = 0 ∨ d + 3 * n < k) →
    (palFinishLoop seq1 fw (pos1 + d) o n = none ∧
      palFinishLoop seq2 fw (pos2 + d) o n = none) ∨
    (∃ fwA d2 o2, palFinishLoop seq1 fw (pos1 + d) o n = some (fwA, pos1 + d2, o2) ∧
      palFinishLoop seq2 fw (pos2 + d) o n = some (fwA, pos2 + d2, o2)) := by
  intro n
  induction n with
  | zero =>
      intro d o fw _
      exact Or.inr ⟨fw, d, o, rfl, rfl⟩
  | succ n ih =>
      intro d o fw hb
      have hd3 : d + 3 < k := by omega
      have e0 := tbl_of_fw3 _ _ (hcode d (by omega))
      have e1 := tbl_of_fw3 _ _ (hcode (d + 1) (by omega))
      have e2 := tbl_of_fw3 _ _ (hcode (d + 2) (by omega))
      have e3 := hcode (d + 3) hd3
      simp only [palFinishLoop]
      rw [show seq1 (pos1 + d + 1) = seq1 (pos1 + (d + 1)) from rfl,
        show seq1 (pos1 + d + 2) = seq1 (pos1 + (d + 2)) from rfl,
        show seq1 (pos1 + d + 3) = seq1 (pos1 + (d + 3)) from rfl,
        show seq2 (pos2 + d + 1) = seq2 (pos2 + (d + 1)) from rfl,
        show seq2 (pos2 + d + 2) = seq2 (pos2 + (d + 2)) from rfl,
        show seq2 (pos2 + d + 3) = seq2 (pos2 + (d + 3)) from rfl,
        e0.1, e1.2.1, e2.2.2.1, e3]
      by_cases hchk : fw0 (seq2 (pos2 + d)) ||| fw1 (seq2 (pos2 + (d + 1))) |||
          fw2 (seq2 (pos2 + (d + 2))) = 255 ∨ fw3 (seq2 (pos2 + (d + 3))) = 255
      · rw [if_pos hchk, if_pos hchk]
        exact Or.inl ⟨rfl, rfl⟩
      · rw [if_neg hchk, if_neg hchk]
        have := ih (d + 3) (o + 1)
          (upd fw o ((fw0 (seq2 (pos2 + d)) ||| fw1 (seq2 (pos2 + (d + 1))) |||
            fw2 (seq2 (pos2 + (d + 2)))) ||| fw3 (seq2 (pos2 + (d + 3)))))
          (by omega)
        rcases this with ⟨ha, hb2⟩ | ⟨fwA, d2, o2, ha, hb2⟩
        · exact Or.inl ⟨ha, hb2⟩
        · exact Or.inr ⟨fwA, d2, o2, ha, hb2⟩

/-- Full congruence of the palindromic completion under pointwise
code-equality of the two windows, at the entry state the main loop
produces. -/
theorem palFinish_congr (k : Nat) (seq1 seq2 : Nat → Nat) (pos1 pos2 : Nat)
    (hk : 3 < k)
    (hcode : ∀ i, i < k → fw3 (seq1 (pos1 + i)) = fw3 (seq2 (pos2 + i)))
    (fw : Nat → Nat) :
    palFinish (mkGeom k) seq1 pos1 fw (pos1 + 4 * ((k + 7) / 8)) ((k + 7) / 8 + 1) =
    palFinish (mkGeom k) seq2 pos2 fw (pos2 + 4 * ((k + 7) / 8)) ((k + 7) / 8 + 1) := by
  obtain ⟨hks, hB, hH, hhb, hhx⟩ := geomFacts k hk
  unfold palFinish
  rw [hks, hB, hhb, hhx]
  have hbound : ((k + 3) / 4 - (if k % 4 = 0 then 0 else 1) - ((k + 7) / 8 + 1)) = 0 ∨
      4 * ((k + 7) / 8) +
        3 * ((k + 3) / 4 - (if k % 4 = 0 then 0 else 1) - ((k + 7) / 8 + 1)) < k := by
    by_cases h : k % 4 = 0 <;> simp [h] <;> omega
  rcases palFinishLoop_congr k seq1 seq2 pos1 pos2 hcode
      ((k + 3) / 4 - (if k % 4 = 0 then 0 else 1) - ((k + 7) / 8 + 1))
      (4 * ((k + 7) / 8)) ((k + 7) / 8 + 1) fw hbound with ⟨ha, hb2⟩ | ⟨fwA, d2, o2, ha, hb2⟩
  · rw [ha, hb2]
  · rw [ha, hb2]
    dsimp only
    by_cases hhang : k % 4 ≠ 0
    · rw [if_pos hhang, if_pos hhang]
      have hcnt1 : pos1 + k - 1 - (pos1 + d2) = k - 1 - d2 := by omega
      have hcnt2 : pos2 + k - 1 - (pos2 + d2) = k - 1 - d2 := by omega
      rw [hcnt1, hcnt2]
      have hrd1 : seq1 (pos1 + k - 1) = seq1 (pos1 + (k - 1)) := by
        rw [show pos1 + k - 1 = pos1 + (k - 1) from by omega]
      have hrd2 : seq2 (pos2 + k - 1) = seq2 (pos2 + (k - 1)) := by
        rw [show pos2 + k - 1 = pos2 + (k - 1) from by omega]
      rw [hrd1, hrd2, (tbl_of_fw3 _ _ (hcode (k - 1) (by omega))).1]
      have hiter : palHangIter seq1 (pos1 + k - 1) (fwA o2 ||| fw0 (seq2 (pos2 + (k - 1))))
          (k - 1 - d2) =
        palHangIter seq2 (pos2 + k - 1) (fwA o2 ||| fw0 (seq2 (pos2 + (k - 1))))
          (k - 1 - d2) := by
        rw [show pos1 + k - 1 = pos1 + (k - 1) from by omega,
          show pos2 + k - 1 = pos2 + (k - 1) from by omega]
        exact palHangIter_congr k seq1 seq2 pos1 pos2 hcode (k - 1 - d2) (k - 1) _
          (by omega) (by omega)
      rw [hiter]
    · rw [if_neg hhang, if_neg hhang]

/-!  Validity propagation: a non-NULL return certifies that every
character the checks touched is a valid base. -/

theorem fw3_cases (c : Nat) : fw3 c < 4 ∨ fw3 c = 255 := by
  unfold fw3
  split_ifs <;> omega

theorem fwFinishLoop_valid (k : Nat) (seq : Nat → Nat) (position : Nat) :
    ∀ (n o : Nat) (fw : Nat → Nat) (r : (Nat → Nat) × Nat × Nat),
    fwFinishLoop seq fw (position + 4 * o) o n = some r →
    ∀ i, 4 * o ≤ i → i < 4 * (o + n) → wcode seq position i < 4 := by
  intro n
  induction n with
  | zero =>
      intro o fw r _ i h1 h2
      omega
  | succ n ih =>
      intro o fw r hsome i h1 h2
      simp only [fwFinishLoop] at hsome
      by_cases hchk : fw0 (seq (position + 4 * o)) ||| fw1 (seq (position + 4 * o + 1)) |||
          fw2 (seq (position + 4 * o + 2)) = 255 ∨ fw3 (seq (position + 4 * o + 3)) = 255
      · rw [if_pos hchk] at hsome
        exact absurd hsome (by simp)
      · rw [if_neg hchk] at hsome
        have hb := byteCheckFw _ _ _ _ hchk
        by_cases hi : i < 4 * o + 4
        · rcases (show i = 4 * o ∨ i = 4 * o + 1 ∨ i = 4 * o + 2 ∨ i = 4 * o + 3
              from by omega) with h | h | h | h <;> subst h
          · exact hb.1
          · exact hb.2.1
          · exact hb.2.2.1
          · exact hb.2.2.2.1
        · rw [show position + 4 * o + 4 = position + 4 * (o + 1) from by omega] at hsome
          exact ih (o + 1) _ r hsome i (by omega) (by omega)

theorem rvFinishLoop_valid (k : Nat) (seq : Nat → Nat) (position : Nat) :
    ∀ (n o : Nat) (rv : Nat → Nat) (revIndex : Nat) (r : (Nat → Nat) × Nat × Nat),
    4 * (o + n) ≤ k →
    (n = 0 ∨ revIndex + 4 * o + 1 = position + k) →
    rvFinishLoop seq rv revIndex o n = some r →
    ∀ i, k - 4 * (o + n) ≤ i → i < k - 4 * o → wcode seq position i < 4 := by
  intro n
  induction n with
  | zero =>
      intro o rv revIndex r _ _ _ i h1 h2
      omega
  | succ n ih =>
      intro o rv revIndex r h4 hrev0 hsome i h1 h2
      have hrev : revIndex + 4 * o + 1 = position + k := hrev0.resolve_left (by omega)
      simp only [rvFinishLoop] at hsome
      by_cases hchk : rv0 (seq revIndex) ||| rv1 (seq (revIndex - 1)) |||
          rv2 (seq (revIndex - 2)) = 255 ∨ rv3 (seq (revIndex - 3)) = 255
      · rw [if_pos hchk] at hsome
        exact absurd hsome (by simp)
      · rw [if_neg hchk] at hsome
        have hb := byteCheckRv _ _ _ _ hchk
        by_cases hi : k - 4 * o - 4 ≤ i
        · have er0 : revIndex = position + (k - 1 - 4 * o) := by omega
          have er1 : revIndex - 1 = position + (k - 1 - 4 * o - 1) := by omega
          have er2 : revIndex - 2 = position + (k - 1 - 4 * o - 2) := by omega
          have er3 : revIndex - 3 = position + (k - 1 - 4 * o - 3) := by omega
          rcases (show i = k - 1 - 4 * o ∨ i = k - 1 - 4 * o - 1 ∨
              i = k - 1 - 4 * o - 2 ∨ i = k - 1 - 4 * o - 3 from by omega)
            with h | h | h | h
          · have := hb.1
            rw [er0] at this
            unfold wcode
            rw [h]
            exact this
          · have := hb.2.1
            rw [er1] at this
            unfold wcode
            rw [h]
            exact this
          · have := hb.2.2.1
            rw [er2] at this
            unfold wcode
            rw [h]
            exact this
          · have := hb.2.2.2.1
            rw [er3] at this
            unfold wcode
            rw [h]
            exact this
        · exact ih (o + 1) _ (revIndex - 4) r (by omega) (by omega) hsome i
            (by omega) (by omega)

theorem prepSeqLoop_valid (k : Nat) (seq : Nat → Nat) (position : Nat) (hk : 3 < k) :
    ∀ (n o : Nat) (fw rv : Nat → Nat) (revIndex : Nat) (r : List Nat),
    o + n = (k + 7) / 8 →
    (n = 0 ∨ revIndex + 4 * o + 1 = position + k) →
    (∀ m, m < 4 * o → wcode seq position m < 4 ∧ wcode seq position (k - 1 - m) < 4) →
    prepSeqLoop (mkGeom k) seq position fw rv (position + 4 * o) revIndex o n = some r →
    ∀ i, i < k → wcode seq position i < 4 := by
  intro n
  induction n with
  | zero =>
      intro o fw rv revIndex r hoH _ hprev _ i hik
      have hk8 : k ≤ 8 * ((k + 7) / 8) := by omega
      by_cases hi : i < 4 * ((k + 7) / 8)
      · exact (hprev i (by omega)).1
      · have := (hprev (k - 1 - i) (by omega)).2
        rw [show k - 1 - (k - 1 - i) = i from by omega] at this
        exact this
  | succ n ih =>
      intro o fw rv revIndex r hoH hrev0 hprev hsome i hik
      have hH4 : 4 * ((k + 7) / 8) ≤ k := by omega
      have hrev : revIndex + 4 * o + 1 = position + k := hrev0.resolve_left (by omega)
      obtain ⟨hks, hB, hH, hhb, hhx⟩ := geomFacts k hk
      simp only [prepSeqLoop] at hsome
      by_cases hchk1 : fw0 (seq (position + 4 * o)) ||| fw1 (seq (position + 4 * o + 1)) |||
          fw2 (seq (position + 4 * o + 2)) = 255 ∨ fw3 (seq (position + 4 * o + 3)) = 255
      · rw [if_pos hchk1] at hsome
        exact absurd hsome (by simp)
      rw [if_neg hchk1] at hsome
      have hbf := byteCheckFw _ _ _ _ hchk1
      by_cases hchk2 : rv0 (seq revIndex) ||| rv1 (seq (revIndex - 1)) |||
          rv2 (seq (revIndex - 2)) = 255 ∨ rv3 (seq (revIndex - 3)) = 255
      · rw [if_pos hchk2] at hsome
        exact absurd hsome (by simp)
      rw [if_neg hchk2] at hsome
      have hbr := byteCheckRv _ _ _ _ hchk2
      have er0 : revIndex = position + (k - 1 - 4 * o) := by omega
      have er1 : revIndex - 1 = position + (k - 1 - 4 * o - 1) := by omega
      have er2 : revIndex - 2 = position + (k - 1 - 4 * o - 2) := by omega
      have er3 : revIndex - 3 = position + (k - 1 - 4 * o - 3) := by omega
      have hcur : ∀ m, m < 4 * (o + 1) →
          wcode seq position m < 4 ∧ wcode seq position (k - 1 - m) < 4 := by
        intro m hm
        by_cases hmo : m < 4 * o
        · exact hprev m hmo
        constructor
        · rcases (show m = 4 * o ∨ m = 4 * o + 1 ∨ m = 4 * o + 2 ∨ m = 4 * o + 3
              from by omega) with h | h | h | h <;> subst h
          · exact hbf.1
          · exact hbf.2.1
          · exact hbf.2.2.1
          · exact hbf.2.2.2.1
        · rcases (show m = 4 * o ∨ m = 4 * o + 1 ∨ m = 4 * o + 2 ∨ m = 4 * o + 3
              from by omega) with h | h | h | h <;> subst h
          · have := hbr.1
            rw [er0] at this
            unfold wcode
            rw [show k - 1 - 4 * o = k - 1 - 4 * o from rfl]
            exact this
          · have := hbr.2.1
            rw [er1] at this
            unfold wcode
            rw [show k - 1 - (4 * o + 1) = k - 1 - 4 * o - 1 from by omega]
            exact this
          · have := hbr.2.2.1
            rw [er2] at this
            unfold wcode
            rw [show k - 1 - (4 * o + 2) = k - 1 - 4 * o - 2 from by omega]
            exact this
          · have := hbr.2.2.2.1
            rw [er3] at this
            unfold wcode
            rw [show k - 1 - (4 * o + 3) = k - 1 - 4 * o - 3 from by omega]
            exact this
      by_cases hc1 : (fw0 (seq (position + 4 * o)) ||| fw1 (seq (position + 4 * o + 1)) |||
          fw2 (seq (position + 4 * o + 2))) ||| fw3 (seq (position + 4 * o + 3)) <
        (rv0 (seq revIndex) ||| rv1 (seq (revIndex - 1)) |||
          rv2 (seq (revIndex - 2))) ||| rv3 (seq (revIndex - 3))
      · rw [if_pos hc1] at hsome
        unfold fwFinish at hsome
        rcases heq : fwFinishLoop seq
            (upd fw o ((fw0 (seq (position + 4 * o)) ||| fw1 (seq (position + 4 * o + 1)) |||
              fw2 (seq (position + 4 * o + 2))) ||| fw3 (seq (position + 4 * o + 3))))
            (position + 4 * o + 4) (o + 1)
            ((mkGeom k).m_kmerSizeInBytes - (mkGeom k).m_hangingBasesExist - (o + 1))
          with _ | rtrip
        · rw [heq] at hsome
          exact absurd hsome (by simp)
        · rw [show position + 4 * o + 4 = position + 4 * (o + 1) from by omega] at heq
          have hloop := fwFinishLoop_valid k seq position _ (o + 1) _ rtrip heq
          rw [hB, hhx] at hloop
          by_cases hi1 : i < 4 * (o + 1)
          · exact (hcur i hi1).1
          by_cases hi2 : i < 4 * ((o + 1) + ((k + 3) / 4 - (if k % 4 = 0 then 0 else 1) - (o + 1)))
          · exact hloop i (by omega) hi2
          · have hx4 : (if k % 4 = 0 then 0 else 1) = 0 ∨ (if k % 4 = 0 then 0 else 1) = 1 := by
              by_cases h : k % 4 = 0 <;> simp [h]
            have hm : k - 1 - i < 4 * (o + 1) := by
              by_cases h : k % 4 = 0 <;> simp [h] at hi2 hx4 ⊢ <;> omega
            have := (hcur (k - 1 - i) hm).2
            rw [show k - 1 - (k - 1 - i) = i from by omega] at this
            exact this
      rw [if_neg hc1] at hsome
      by_cases hc2 : (rv0 (seq revIndex) ||| rv1 (seq (revIndex - 1)) |||
          rv2 (seq (revIndex - 2))) ||| rv3 (seq (revIndex - 3)) <
        (fw0 (seq (position + 4 * o)) ||| fw1 (seq (position + 4 * o + 1)) |||
          fw2 (seq (position + 4 * o + 2))) ||| fw3 (seq (position + 4 * o + 3))
      · rw [if_pos hc2] at hsome
        unfold rvFinish at hsome
        rcases heq : rvFinishLoop seq
            (upd rv o ((rv0 (seq revIndex) ||| rv1 (seq (revIndex - 1)) |||
              rv2 (seq (revIndex - 2))) ||| rv3 (seq (revIndex - 3))))
            (revIndex - 4) (o + 1)
            ((mkGeom k).m_kmerSizeInBytes - (mkGeom k).m_hangingBasesExist - (o + 1))
          with _ | rtrip
        · rw [heq] at hsome
          exact absurd hsome (by simp)
        · have hx4 : (if k % 4 = 0 then 0 else 1) = 0 ∨ (if k % 4 = 0 then 0 else 1) = 1 := by
            by_cases h : k % 4 = 0 <;> simp [h]
          rw [hB, hhx] at heq
          have hcnt4 : 4 * ((o + 1) + ((k + 3) / 4 - (if k % 4 = 0 then 0 else 1) - (o + 1))) ≤ k := by
            by_cases h : k % 4 = 0 <;> simp [h] at hx4 ⊢ <;> omega
          have hloop := rvFinishLoop_valid k seq position _ (o + 1) _ (revIndex - 4) rtrip
            hcnt4 (by omega) heq
          by_cases hi1 : k - 4 * (o + 1) ≤ i
          · have hm : k - 1 - i < 4 * (o + 1) := by omega
            have := (hcur (k - 1 - i) hm).2
            rw [show k - 1 - (k - 1 - i) = i from by omega] at this
            exact this
          by_cases hi2 : k - 4 * ((o + 1) + ((k + 3) / 4 - (if k % 4 = 0 then 0 else 1) - (o + 1))) ≤ i
          · exact hloop i hi2 (by omega)
          · have hm : i < 4 * (o + 1) := by
              by_cases h : k % 4 = 0 <;> simp [h] at hi2 hx4 ⊢ <;> omega
            exact (hcur i hm).1
      rw [if_neg hc2] at hsome
      rw [show position + 4 * o + 4 = position + 4 * (o + 1) from by omega] at hsome
      exact ih (o + 1) _ _ (revIndex - 4) r (by omega) (by omega) hcur hsome i hik

/-!  The debug decoder `getBases` in closed form. -/

theorem getBasesAux_neg1 (c : Nat → Nat) (ci : Nat) (n : Nat) :
    getBasesAux c ci (-1) n = getBasesAux c (ci + 1) 3 n := by
  cases n with
  | zero => rfl
  | succ n => rfl

theorem getBasesAux_closed (c : Nat → Nat) :
    ∀ (n i : Nat), getBasesAux c (i / 4) (3 - ((i % 4 : Nat) : Int)) n =
      (List.range' i n).map
        (fun m => acgtChar ((c (m / 4) >>> (2 * (3 - m % 4))) &&& 3)) := by
  intro n
  induction n with
  | zero => intro i; rfl
  | succ n ih =>
      intro i
      have hne : (3 : Int) - (i % 4 : Nat) ≠ -1 := by omega
      simp only [getBasesAux]
      rw [if_neg hne, if_neg hne]
      have ht : ((3 : Int) - (i % 4 : Nat)).toNat = 3 - i % 4 := by omega
      rw [ht, List.range'_succ, List.map_cons]
      congr 1
      by_cases hlt : i % 4 < 3
      · have e1 : (3 : Int) - ((i % 4 : Nat) : Int) - 1 = 3 - (((i + 1) % 4 : Nat) : Int) := by
          have : (i + 1) % 4 = i % 4 + 1 := by omega
          rw [this]
          push_cast
          omega
        have e2 : i / 4 = (i + 1) / 4 := by omega
        rw [e1, e2]
        exact ih (i + 1)
      · have heq3 : i % 4 = 3 := by omega
        have e1 : (3 : Int) - ((i % 4 : Nat) : Int) - 1 = -1 := by omega
        rw [e1, getBasesAux_neg1]
        have e2 : getBasesAux c (i / 4 + 1) 3 n =
            getBasesAux c ((i + 1) / 4) (3 - (((i + 1) % 4 : Nat) : Int)) n := by
          rw [show i / 4 + 1 = (i + 1) / 4 from by omega]
          congr 1
          omega
        rw [e2]
        exact ih (i + 1)

theorem getBases_closed (k : Nat) (hk : 3 < k) (c : Nat → Nat) :
    getBases (mkGeom k) c =
      (List.range k).map
        (fun m => acgtChar ((c (m / 4) >>> (2 * (3 - m % 4))) &&& 3)) := by
  obtain ⟨hks, _, _, _, _⟩ := geomFacts k hk
  unfold getBases
  rw [hks, List.range_eq_range']
  exact getBasesAux_closed c k 0

/-- Reading slot `r` of a spec byte recovers the code packed there. -/
theorem decode_specByte (k : Nat) (u : Nat → Nat) (hu : ∀ i, i < k → u i < 4) :
    ∀ q r, r < 4 → 4 * q + r < k →
    (specByte u k q >>> (2 * (3 - r))) &&& 3 = u (4 * q + r) := by
  intro q r hr4 hik
  unfold specByte
  split_ifs with h1 h2 h3
  · have e := extract_codes (u (4 * q)) (hu _ (by omega)) (u (4 * q + 1)) (hu _ (by omega))
      (u (4 * q + 2)) (hu _ (by omega)) (u (4 * q + 3)) (hu _ (by omega))
    unfold fullByte
    rcases (show r = 0 ∨ r = 1 ∨ r = 2 ∨ r = 3 from by omega) with h | h | h | h <;>
      subst h
    · exact e.1
    · exact e.2.1
    · exact e.2.2.1
    · exact e.2.2.2
  · have e := extract_codes (u (4 * q)) (hu _ (by omega)) (u (4 * q + 1)) (hu _ (by omega))
      (u (4 * q + 2)) (hu _ (by omega)) 0 (by omega)
    rw [show 64 * u (4 * q) + 16 * u (4 * q + 1) + 4 * u (4 * q + 2) =
      64 * u (4 * q) + 16 * u (4 * q + 1) + 4 * u (4 * q + 2) + 0 from by omega]
    rcases (show r = 0 ∨ r = 1 ∨ r = 2 from by omega) with h | h | h <;> subst h
    · exact e.1
    · exact e.2.1
    · exact e.2.2.1
  · have e := extract_codes (u (4 * q)) (hu _ (by omega)) (u (4 * q + 1)) (hu _ (by omega))
      0 (by omega) 0 (by omega)
    rw [show 64 * u (4 * q) + 16 * u (4 * q + 1) =
      64 * u (4 * q) + 16 * u (4 * q + 1) + 4 * 0 + 0 from by omega]
    rcases (show r = 0 ∨ r = 1 from by omega) with h | h <;> subst h
    · exact e.1
    · exact e.2.1
  · have e := extract_codes (u (4 * q)) (hu _ (by omega)) 0 (by omega) 0 (by omega)
      0 (by omega)
    rw [show 64 * u (4 * q) = 64 * u (4 * q) + 16 * 0 + 4 * 0 + 0 from by omega]
    rcases (show r = 0 from by omega) with h <;> subst h
    exact e.1

/-- Decoding the spec packing of a window of codes yields its letters. -/
theorem getBases_spec (k : Nat) (hk : 3 < k) (u : Nat → Nat)
    (hu : ∀ i, i < k → u i < 4) :
    getBases (mkGeom k) (seqOf ((List.range ((k + 3) / 4)).map (specByte u k))) =
      (List.range k).map (fun i => acgtChar (u i)) := by
  rw [getBases_closed k hk]
  apply List.map_congr_left
  intro i hi
  simp only [List.mem_range] at hi
  unfold seqOf
  rw [rangeMapGetD _ _ _ (by omega)]
  have := decode_specByte k u hu (i / 4) (i % 4) (by omega) (by omega)
  rw [show 4 * (i / 4) + i % 4 = i from by omega] at this
  rw [this]

theorem acgtChar_valid (c : Nat) (hc : validBase c) :
    acgtChar (fw3 c) = Char.ofNat (upperChar c) := by
  rcases hc with h | h | h | h | h | h | h | h <;> subst h <;> decide

theorem acgtChar_comp (c : Nat) (hc : validBase c) :
    acgtChar (3 - fw3 c) = Char.ofNat (upperChar (compChar c)) := by
  rcases hc with h | h | h | h | h | h | h | h <;> subst h <;> decide

/-!  Remaining helper lemmas for the claim theorems. -/

theorem least_diff (F R : Nat → Nat) (H : Nat) (hex : ∃ j, j < H ∧ F j ≠ R j) :
    ∃ j0, j0 < H ∧ F j0 ≠ R j0 ∧ ∀ j, j < j0 → F j = R j := by
  refine ⟨Nat.find hex, (Nat.find_spec hex).1, (Nat.find_spec hex).2, ?_⟩
  intro j hj
  have hmin := Nat.find_min hex hj
  have hjH : j < H := by
    have := (Nat.find_spec hex).1
    omega
  by_contra hcon
  exact hmin ⟨hjH, hcon⟩

theorem windowOf_seqOf (w : List Nat) (k : Nat) (hlen : w.length = k) :
    windowOf (seqOf w) 0 k = w := by
  unfold windowOf seqOf
  apply List.ext_getElem
  · simp [hlen]
  · intro i h1 h2
    simp only [List.getElem_map, List.getElem_range, Nat.zero_add]
    rw [List.getD_eq_getElem _ _ (by omega)]

theorem seqOf_at (w : List Nat) (i : Nat) (hi : i < w.length) :
    seqOf w (0 + i) = w.getD i 0 := by
  unfold seqOf
  rw [Nat.zero_add]

theorem rc_window_code (k : Nat) (seq : Nat → Nat) (position : Nat)
    (hv : ∀ i, i < k → validBase (seq (position + i))) :
    ∀ i, i < k →
    wcode (seqOf (revCompChars (windowOf seq position k))) 0 i =
      rvu (wcode seq position) k i := by
  intro i hik
  unfold wcode seqOf revCompChars windowOf
  rw [Nat.zero_add]
  have hlen : i < ((List.range k).map (fun m => seq (position + m))).reverse.length := by
    simp [hik]
  have hlen2 : i < ((List.range k).map (fun m => seq (position + m))).length := by
    simp [hik]
  rw [getD_map_lt _ _ _ hlen, reverse_getD _ _ hlen2]
  simp only [List.length_map, List.length_range]
  rw [List.getD_eq_getElem?_getD, List.getElem?_map, List.getElem?_range (by omega)]
  show fw3 (compChar (seq (position + (k - 1 - i)))) = _
  rw [compChar_code _ (hv _ (by omega))]
  rfl

theorem decode_letters (k : Nat) (w : List Nat) (hk : 3 < k) (hlen : w.length = k)
    (hv : ∀ c ∈ w, validBase c) :
    (List.range k).map (fun i => acgtChar (wcode (seqOf w) 0 i)) =
      w.map (fun c => Char.ofNat (upperChar c)) := by
  apply List.ext_getElem
  · simp [hlen]
  · intro i h1 h2
    simp only [List.length_map, List.length_range] at h1 h2
    simp only [List.getElem_map, List.getElem_range]
    unfold wcode
    rw [seqOf_at w i (by omega), List.getD_eq_getElem _ _ (by omega)]
    exact acgtChar_valid _ (hv _ (List.getElem_mem _))

theorem decode_letters_rc (k : Nat) (w : List Nat) (hk : 3 < k) (hlen : w.length = k)
    (hv : ∀ c ∈ w, validBase c) :
    (List.range k).map (fun i => acgtChar (rvu (wcode (seqOf w) 0) k i)) =
      (revCompChars w).map (fun c => Char.ofNat (upperChar c)) := by
  apply List.ext_getElem
  · simp [revCompChars, hlen]
  · intro i h1 h2
    simp only [List.length_map, List.length_range, List.length_reverse] at h1 h2
    simp only [List.getElem_map, List.getElem_range]
    unfold revCompChars
    simp only [List.getElem_map, List.getElem_reverse]
    have hidx : w.length - 1 - i = k - 1 - i := by omega
    simp only [hidx]
    unfold rvu wcode
    rw [seqOf_at w (k - 1 - i) (by omega), List.getD_eq_getElem _ _ (by omega)]
    exact acgtChar_comp _ (hv _ (List.getElem_mem _))

theorem fwOr_invalid (c0 c1 c2 : Nat)
    (h : ¬(validBase c0 ∧ validBase c1 ∧ validBase c2)) :
    fw0 c0 ||| fw1 c1 ||| fw2 c2 = 255 := by
  by_contra hb3
  have hchk : ¬(fw0 c0 ||| fw1 c1 ||| fw2 c2 = 255 ∨ fw3 65 = 255) := by
    push_neg
    exact ⟨hb3, by decide⟩
  have hall := byteCheckFw c0 c1 c2 65 hchk
  exact h ⟨(validBase_iff c0).mpr (by omega), (validBase_iff c1).mpr (by omega),
    (validBase_iff c2).mpr (by omega)⟩

theorem rvOr_invalid (c0 c1 c2 : Nat)
    (h : ¬(validBase c0 ∧ validBase c1 ∧ validBase c2)) :
    rv0 c0 ||| rv1 c1 ||| rv2 c2 = 255 := by
  by_contra hb3
  have hchk : ¬(rv0 c0 ||| rv1 c1 ||| rv2 c2 = 255 ∨ rv3 65 = 255) := by
    push_neg
    exact ⟨hb3, by decide⟩
  have hall := byteCheckRv c0 c1 c2 65 hchk
  exact h ⟨(validBase_iff c0).mpr (by omega), (validBase_iff c1).mpr (by omega),
    (validBase_iff c2).mpr (by omega)⟩

theorem fwOr_valid (c0 c1 c2 : Nat) (h0 : validBase c0) (h1 : validBase c1)
    (h2 : validBase c2) :
    fw0 c0 ||| fw1 c1 ||| fw2 c2 =
      64 * fw3 c0 + 16 * fw3 c1 + 4 * fw3 c2 ∧
    rv0 c0 ||| rv1 c1 ||| rv2 c2 =
      64 * (3 - fw3 c0) + 16 * (3 - fw3 c1) + 4 * (3 - fw3 c2) ∧
    fw3 c0 < 4 ∧ fw3 c1 < 4 ∧ fw3 c2 < 4 := by
  have hv0 : fw3 c0 < 4 := by
    have := (validBase_iff c0).mp h0
    rcases fw3_cases c0 with h | h <;> omega
  have hv1 : fw3 c1 < 4 := by
    have := (validBase_iff c1).mp h1
    rcases fw3_cases c1 with h | h <;> omega
  have hv2 : fw3 c2 < 4 := by
    have := (validBase_iff c2).mp h2
    rcases fw3_cases c2 with h | h <;> omega
  rcases tableVals c0 with t0 | t0
  · omega
  rcases tableVals c1 with t1 | t1
  · omega
  rcases tableVals c2 with t2 | t2
  · omega
  refine ⟨?_, ?_, hv0, hv1, hv2⟩
  · rw [t0.2.1, t1.2.2.1, t2.2.2.2.1]
    exact lor_codes3 _ hv0 _ hv1 _ hv2
  · rw [t0.2.2.2.2.1, t1.2.2.2.2.2.1, t2.2.2.2.2.2.2.1]
    exact lor_codes3 _ (by omega) _ (by omega) _ (by omega)

theorem acgtChar_mem (n : Nat) :
    acgtChar n = 'A' ∨ acgtChar n = 'C' ∨ acgtChar n = 'G' ∨ acgtChar n = 'T' := by
  rcases n with _ | _ | _ | m <;> simp [acgtChar]

/-- Window validity rephrased as code bounds. -/
theorem hval_of_validBase (k : Nat) (seq : Nat → Nat) (position : Nat)
    (hv : ∀ i, i < k → validBase (seq (position + i))) :
    ∀ i, i < k → wcode seq position i < 4 := by
  intro i hik
  have := (validBase_iff _).mp (hv i hik)
  unfold wcode
  rcases fw3_cases (seq (position + i)) with h | h <;> omega

/-!  The claims. -/

/-- C1: the claim states that for every k > 3 and every window of valid
bases, `prepSeq` returns a non-NULL result whose bytes are the byte-wise
minimum of the forward and reverse-complement packings.  The code violates
this: for k = 8 and the window ACGTACGT (a reverse-complement palindrome),
both packings are `[27, 27]`, so the minimum is `[27, 27]`, but the
palindromic completion enters at `outputIndex + 1` after the main loop's
own increment already ran, skips byte 1 entirely, and returns `[27, 0]`. -/
theorem C1_palindromic_bug :
    pack [65, 67, 71, 84, 65, 67, 71, 84] = [27, 27] ∧
    pack (revCompChars [65, 67, 71, 84, 65, 67, 71, 84]) = [27, 27] ∧
    byteMin (pack [65, 67, 71, 84, 65, 67, 71, 84])
      (pack (revCompChars [65, 67, 71, 84, 65, 67, 71, 84])) = [27, 27] ∧
    prepSeq (mkGeom 8) (seqOf [65, 67, 71, 84, 65, 67, 71, 84]) 0 = some [27, 0] := by
  refine ⟨by decide, by decide, by decide, by decide⟩

/-- C2: for every window length k > 3, if any character of the window is
outside {A,C,G,T,a,c,g,t}, then `prepSeq` returns NULL (`none`). -/
theorem C2_invalid_char (k : Nat) (seq : Nat → Nat) (position : Nat) (hk : 3 < k)
    (hinv : ∃ i, i < k ∧ ¬ validBase (seq (position + i))) :
    prepSeq (mkGeom k) seq position = none := by
  rcases hres : prepSeq (mkGeom k) seq position with _ | r
  · rfl
  · exfalso
    obtain ⟨i, hik, hbad⟩ := hinv
    obtain ⟨hks, hB, hH, hhb, hhx⟩ := geomFacts k hk
    unfold prepSeq at hres
    rw [hks, hH] at hres
    have hres2 : prepSeqLoop (mkGeom k) seq position (fun _ => 0) (fun _ => 0)
        (position + 4 * 0) (position + k - 1) 0 ((k + 7) / 8) = some r := by
      rw [show position + 4 * 0 = position from by omega]
      exact hres
    have hall := prepSeqLoop_valid k seq position hk ((k + 7) / 8) 0 _ _ _ r
      (by omega) (by omega) (by omega) hres2
    have := hall i hik
    unfold wcode at this
    exact hbad ((validBase_iff _).mpr (by omega))

/-- Witness for C2: k = 4, window AANC (the N at offset 2 is invalid). -/
theorem C2_invalid_char_witness :
    prepSeq (mkGeom 4) (seqOf [65, 65, 78, 67]) 0 = none :=
  C2_invalid_char 4 (seqOf [65, 65, 78, 67]) 0 (by omega) ⟨2, by omega, by decide⟩

/-- C3: the claim states that when all compared prefix bytes tie,
`prepSeq` returns the forward buffer holding the full forward packing.
The code violates this: for k = 6 and the window AAATTT, the forward and
reverse-complement packings agree byte-for-byte (`[3, 240]`, so the
compared prefix ties), yet the returned buffer is `[3, 0]`: the
palindromic completion skips byte 1 and writes the hanging byte out of
bounds at index 2. -/
theorem C3_tie_bug :
    pack [65, 65, 65, 84, 84, 84] = [3, 240] ∧
    pack (revCompChars [65, 65, 65, 84, 84, 84]) = [3, 240] ∧
    prepSeq (mkGeom 6) (seqOf [65, 65, 65, 84, 84, 84]) 0 = some [3, 0] := by
  refine ⟨by decide, by decide, by decide⟩

/-- C4: for every k > 3 and every valid window, encoding the window at its
position and encoding its reverse complement as an independent sequence at
position 0 yield identical results. -/
theorem C4_strand_symmetry (k : Nat) (seq : Nat → Nat) (position : Nat) (hk : 3 < k)
    (hv : ∀ i, i < k → validBase (seq (position + i))) :
    prepSeq (mkGeom k) seq position =
      prepSeq (mkGeom k) (seqOf (revCompChars (windowOf seq position k))) 0 := by
  have hval := hval_of_validBase k seq position hv
  have hu2 := rc_window_code k seq position hv
  have hval2 : ∀ i, i < k →
      wcode (seqOf (revCompChars (windowOf seq position k))) 0 i < 4 := by
    intro i hik
    rw [hu2 i hik]
    unfold rvu
    have := hval (k - 1 - i) (by omega)
    omega
  have hFb2 : ∀ j, 4 * j < k →
      specByte (wcode (seqOf (revCompChars (windowOf seq position k))) 0) k j =
        specByte (rvu (wcode seq position) k) k j := by
    intro j hj
    exact specByte_congr _ _ _ _ hu2 hj
  have hRb2 : ∀ j, 4 * j < k →
      specByte (rvu (wcode (seqOf (revCompChars (windowOf seq position k))) 0) k) k j =
        specByte (wcode seq position) k j := by
    intro j hj
    apply specByte_congr
    · intro i hik
      unfold rvu
      rw [hu2 (k - 1 - i) (by omega)]
      unfold rvu
      rw [show k - 1 - (k - 1 - i) = i from by omega]
      have := hval i hik
      omega
    · exact hj
  have h4H : 4 * ((k + 7) / 8) ≤ k := by omega
  by_cases htie : ∀ j, j < (k + 7) / 8 →
      specByte (wcode seq position) k j = specByte (rvu (wcode seq position) k) k j
  · have hpal := tie_palindrome k seq position hk hval htie
    have htie2 : ∀ j, j < (k + 7) / 8 →
        specByte (wcode (seqOf (revCompChars (windowOf seq position k))) 0) k j =
          specByte (rvu (wcode (seqOf (revCompChars (windowOf seq position k))) 0) k) k j := by
      intro j hjH
      rw [hFb2 j (by omega), hRb2 j (by omega)]
      exact (htie j hjH).symm
    rw [prepSeq_tie k seq position hk hval htie, prepSeq_tie k _ 0 hk hval2 htie2]
    have hpref : prefBuf (specByte (wcode (seqOf (revCompChars (windowOf seq position k))) 0) k)
        ((k + 7) / 8) = prefBuf (specByte (wcode seq position) k) ((k + 7) / 8) := by
      funext j
      unfold prefBuf
      by_cases hj : j < (k + 7) / 8
      · rw [if_pos hj, if_pos hj, hFb2 j (by omega), ← htie j hj]
      · rw [if_neg hj, if_neg hj]
    rw [hpref]
    apply (palFinish_congr k seq _ position 0 hk ?_ _).symm.symm
    intro i hik
    show wcode seq position i = wcode (seqOf (revCompChars (windowOf seq position k))) 0 i
    rw [hu2 i hik]
    exact hpal i hik
  · push_neg at htie
    obtain ⟨j0, hj0H, hj0ne, hj0min⟩ := least_diff _ _ _ htie
    have hj0B : 4 * j0 < k := by omega
    rcases Nat.lt_or_ge (specByte (wcode seq position) k j0)
        (specByte (rvu (wcode seq position) k) k j0) with hlt | hge
    · rw [prepSeq_fwwin k seq position hk hval j0 hj0H hj0min hlt]
      have hlt2 : specByte (rvu (wcode (seqOf (revCompChars (windowOf seq position k))) 0) k) k j0 <
          specByte (wcode (seqOf (revCompChars (windowOf seq position k))) 0) k j0 := by
        rw [hFb2 j0 hj0B, hRb2 j0 hj0B]
        exact hlt
      rw [prepSeq_rvwin k _ 0 hk hval2 j0 hj0H ?_ hlt2]
      · refine congrArg some ?_
        apply List.map_congr_left
        intro j hj
        simp only [List.mem_range] at hj
        exact (hRb2 j (by omega)).symm
      · intro j hjlt
        rw [hFb2 j (by omega), hRb2 j (by omega)]
        exact (hj0min j hjlt).symm
    · have hgt : specByte (rvu (wcode seq position) k) k j0 <
          specByte (wcode seq position) k j0 := by omega
      rw [prepSeq_rvwin k seq position hk hval j0 hj0H hj0min hgt]
      have hlt2 : specByte (wcode (seqOf (revCompChars (windowOf seq position k))) 0) k j0 <
          specByte (rvu (wcode (seqOf (revCompChars (windowOf seq position k))) 0) k) k j0 := by
        rw [hFb2 j0 hj0B, hRb2 j0 hj0B]
        exact hgt
      rw [prepSeq_fwwin k _ 0 hk hval2 j0 hj0H ?_ hlt2]
      · refine congrArg some ?_
        apply List.map_congr_left
        intro j hj
        simp only [List.mem_range] at hj
        exact (hFb2 j (by omega)).symm
      · intro j hjlt
        rw [hFb2 j (by omega), hRb2 j (by omega)]
        exact (hj0min j hjlt).symm

/-- Witness for C4: k = 4, window AAAC at position 0 against its reverse
complement GTTT. -/
theorem C4_strand_symmetry_witness :
    prepSeq (mkGeom 4) (seqOf [65, 65, 65, 67]) 0 =
      prepSeq (mkGeom 4) (seqOf (revCompChars (windowOf (seqOf [65, 65, 65, 67]) 0 4))) 0 :=
  C4_strand_symmetry 4 (seqOf [65, 65, 65, 67]) 0 (by omega) (by decide)

/-- C5: for every window length k > 3 the constructed geometry satisfies
`m_kmerSizeInBytes = ceil(k/4)`, `m_halfSizeOfKmerInBytes = ceil(k/8)` and
`1 ≤ m_halfSizeOfKmerInBytes ≤ m_kmerSizeInBytes`. -/
theorem C5_geometry (k : Nat) (hk : 3 < k) :
    (mkGeom k).m_kmerSizeInBytes = (k + 3) / 4 ∧
    (mkGeom k).m_halfSizeOfKmerInBytes = (k + 7) / 8 ∧
    1 ≤ (mkGeom k).m_halfSizeOfKmerInBytes ∧
    (mkGeom k).m_halfSizeOfKmerInBytes ≤ (mkGeom k).m_kmerSizeInBytes := by
  obtain ⟨_, hB, hH, _, _⟩ := geomFacts k hk
  refine ⟨hB, hH, ?_, ?_⟩
  · rw [hH]
    omega
  · rw [hH, hB]
    omega

/-- Witness for C5 at k = 7. -/
theorem C5_geometry_witness :
    (mkGeom 7).m_kmerSizeInBytes = (7 + 3) / 4 ∧
    (mkGeom 7).m_halfSizeOfKmerInBytes = (7 + 7) / 8 ∧
    1 ≤ (mkGeom 7).m_halfSizeOfKmerInBytes ∧
    (mkGeom 7).m_halfSizeOfKmerInBytes ≤ (mkGeom 7).m_kmerSizeInBytes :=
  C5_geometry 7 (by omega)

/-- C6: construction with window size 0, 1, 2 or 3 fails (the constructor
assertion aborts, no instance is produced); window size 4 succeeds. -/
theorem C6_construction :
    (∀ k, k ≤ 3 → mkReadsProcessor k = none) ∧ (mkReadsProcessor 4).isSome = true := by
  constructor
  · intro k hk3
    unfold mkReadsProcessor
    rw [if_neg (by omega)]
  · rfl

/-- Witness for C6 at k = 2 and k = 4. -/
theorem C6_construction_witness :
    mkReadsProcessor 2 = none ∧ (mkReadsProcessor 4).isSome = true :=
  ⟨C6_construction.1 2 (by omega), C6_construction.2⟩

/-- C7: the three concrete k = 4 cases: AAAC encodes to the forward byte
`0b00000001`, TTTG encodes to the reverse-complement byte `0b01000000`,
and the self-reverse-complementary ACGT encodes to its forward packing
`0b00011011`. -/
theorem C7_k4_cases :
    prepSeq (mkGeom 4) (seqOf [65, 65, 65, 67]) 0 = some [0b00000001] ∧
    prepSeq (mkGeom 4) (seqOf [84, 84, 84, 71]) 0 = some [0b01000000] ∧
    prepSeq (mkGeom 4) (seqOf [65, 67, 71, 84]) 0 = some [0b00011011] := by
  refine ⟨by decide, by decide, by decide⟩

/-- C8: for every k > 3 and every valid window whose forward and
reverse-complement packings differ, decoding the bytes returned by
`encode(w, 0)` with `getBases` yields the canonical strand (the window if
the forward packing is smaller, its reverse complement if the
reverse-complement packing is smaller), upper-cased. -/
theorem C8_round_trip (k : Nat) (w : List Nat) (hk : 3 < k) (hlen : w.length = k)
    (hv : ∀ c ∈ w, validBase c)
    (hne : pack w ≠ pack (revCompChars w)) :
    ∃ bs, prepSeq (mkGeom k) (seqOf w) 0 = some bs ∧
      ((bytesLt (pack w) (pack (revCompChars w)) = true ∧
        getBases (mkGeom k) (seqOf bs) = w.map (fun c => Char.ofNat (upperChar c))) ∨
       (bytesLt (pack (revCompChars w)) (pack w) = true ∧
        getBases (mkGeom k) (seqOf bs) =
          (revCompChars w).map (fun c => Char.ofNat (upperChar c)))) := by
  have hwin : windowOf (seqOf w) 0 k = w := windowOf_seqOf w k hlen
  have hv' : ∀ i, i < k → validBase (seqOf w (0 + i)) := by
    intro i hik
    rw [seqOf_at w i (by omega), List.getD_eq_getElem _ _ (by omega)]
    exact hv _ (List.getElem_mem _)
  have hval := hval_of_validBase k (seqOf w) 0 hv'
  have hpw : pack w =
      (List.range ((k + 3) / 4)).map (specByte (wcode (seqOf w) 0) k) := by
    nth_rewrite 1 [← hwin]
    exact pack_window (seqOf w) 0 k
  have hprc : pack (revCompChars w) =
      (List.range ((k + 3) / 4)).map (specByte (rvu (wcode (seqOf w) 0) k) k) := by
    nth_rewrite 1 [← hwin]
    exact pack_rc_window (seqOf w) 0 k hv'
  have hne' : (List.range ((k + 3) / 4)).map (specByte (wcode (seqOf w) 0) k) ≠
      (List.range ((k + 3) / 4)).map (specByte (rvu (wcode (seqOf w) 0) k) k) := by
    rw [← hpw, ← hprc]
    exact hne
  obtain ⟨j0, hj0H, hj0ne, hj0min⟩ := exists_firstdiff k (seqOf w) 0 hk hval hne'
  have hHB : (k + 7) / 8 ≤ (k + 3) / 4 := by omega
  rcases Nat.lt_or_ge (specByte (wcode (seqOf w) 0) k j0)
      (specByte (rvu (wcode (seqOf w) 0) k) k j0) with hlt | hge
  · refine ⟨(List.range ((k + 3) / 4)).map (specByte (wcode (seqOf w) 0) k),
      prepSeq_fwwin k (seqOf w) 0 hk hval j0 hj0H hj0min hlt, Or.inl ⟨?_, ?_⟩⟩
    · rw [hpw, hprc]
      exact bytesLt_firstdiff _ _ _ j0 (by omega) hj0min hlt
    · rw [getBases_spec k hk _ hval]
      exact decode_letters k w hk hlen hv
  · have hgt : specByte (rvu (wcode (seqOf w) 0) k) k j0 <
        specByte (wcode (seqOf w) 0) k j0 := by omega
    refine ⟨(List.range ((k + 3) / 4)).map (specByte (rvu (wcode (seqOf w) 0) k) k),
      prepSeq_rvwin k (seqOf w) 0 hk hval j0 hj0H hj0min hgt, Or.inr ⟨?_, ?_⟩⟩
    · rw [hpw, hprc]
      exact bytesLt_firstdiff _ _ _ j0 (by omega)
        (fun m hm => (hj0min m hm).symm) hgt
    · rw [getBases_spec k hk (rvu (wcode (seqOf w) 0) k) ?_]
      · exact decode_letters_rc k w hk hlen hv
      · intro i hik
        unfold rvu
        have := hval (k - 1 - i) (by omega)
        omega

/-- Witness for C8: k = 4, window AAAC (forward packing `[1]` beats the
reverse complement GTTT's `[191]`). -/
theorem C8_round_trip_witness :
    ∃ bs, prepSeq (mkGeom 4) (seqOf [65, 65, 65, 67]) 0 = some bs ∧
      ((bytesLt (pack [65, 65, 65, 67]) (pack (revCompChars [65, 65, 65, 67])) = true ∧
        getBases (mkGeom 4) (seqOf bs) =
          [65, 65, 65, 67].map (fun c => Char.ofNat (upperChar c))) ∨
       (bytesLt (pack (revCompChars [65, 65, 65, 67])) (pack [65, 65, 65, 67]) = true ∧
        getBases (mkGeom 4) (seqOf bs) =
          (revCompChars [65, 65, 65, 67]).map (fun c => Char.ofNat (upperChar c)))) :=
  C8_round_trip 4 [65, 65, 65, 67] (by omega) (by decide) (by decide) (by decide)

/-- C9: the decoder is total and shape-correct: for every k > 3 and every
byte buffer, `getBases` returns exactly k characters, each one of
A, C, G, T, and its output depends only on the first `ceil(k/4)` bytes of
the buffer. -/
theorem C9_decoder_total (k : Nat) (hk : 3 < k) (c : Nat → Nat) :
    (getBases (mkGeom k) c).length = k ∧
    (∀ ch ∈ getBases (mkGeom k) c, ch = 'A' ∨ ch = 'C' ∨ ch = 'G' ∨ ch = 'T') ∧
    (∀ c2 : Nat → Nat, (∀ j, j < (k + 3) / 4 → c j = c2 j) →
      getBases (mkGeom k) c = getBases (mkGeom k) c2) := by
  refine ⟨?_, ?_, ?_⟩
  · rw [getBases_closed k hk]
    simp
  · intro ch hch
    rw [getBases_closed k hk] at hch
    simp only [List.mem_map, List.mem_range] at hch
    obtain ⟨m, _, hm⟩ := hch
    rw [← hm]
    exact acgtChar_mem _
  · intro c2 hagree
    rw [getBases_closed k hk, getBases_closed k hk]
    apply List.map_congr_left
    intro m hm
    simp only [List.mem_range] at hm
    rw [hagree (m / 4) (by omega)]

/-- Witness for C9 at k = 5 on an arbitrary buffer. -/
theorem C9_decoder_total_witness :
    (getBases (mkGeom 5) (seqOf [255, 137])).length = 5 :=
  (C9_decoder_total 5 (by omega) (seqOf [255, 137])).1

/-- C10: the fused sentinel check is sound: the OR of the three partial
forward (or reverse) lookups is `0xFF` exactly when one of the three
characters is invalid; on three valid characters it is at most `0xFC`
with bits 0-1 clear; and the separate fourth lookup is `0xFF` exactly on
an invalid character, so together the tests detect exactly the groups of
four containing an invalid character. -/
theorem C10_sentinel (c0 c1 c2 c3 : Nat) :
    ((fw0 c0 ||| fw1 c1 ||| fw2 c2 = 255) ↔
      ¬(validBase c0 ∧ validBase c1 ∧ validBase c2)) ∧
    ((rv0 c0 ||| rv1 c1 ||| rv2 c2 = 255) ↔
      ¬(validBase c0 ∧ validBase c1 ∧ validBase c2)) ∧
    (validBase c0 → validBase c1 → validBase c2 →
      fw0 c0 ||| fw1 c1 ||| fw2 c2 ≤ 252 ∧ (fw0 c0 ||| fw1 c1 ||| fw2 c2) % 4 = 0 ∧
      rv0 c0 ||| rv1 c1 ||| rv2 c2 ≤ 252 ∧ (rv0 c0 ||| rv1 c1 ||| rv2 c2) % 4 = 0) ∧
    (fw3 c3 = 255 ↔ ¬ validBase c3) ∧
    (rv3 c3 = 255 ↔ ¬ validBase c3) := by
  have himpl : validBase c0 → validBase c1 → validBase c2 →
      fw0 c0 ||| fw1 c1 ||| fw2 c2 ≤ 252 ∧ (fw0 c0 ||| fw1 c1 ||| fw2 c2) % 4 = 0 ∧
      rv0 c0 ||| rv1 c1 ||| rv2 c2 ≤ 252 ∧ (rv0 c0 ||| rv1 c1 ||| rv2 c2) % 4 = 0 := by
    intro h0 h1 h2
    obtain ⟨hfw, hrv, hb0, hb1, hb2⟩ := fwOr_valid c0 c1 c2 h0 h1 h2
    rw [hfw, hrv]
    omega
  refine ⟨⟨?_, fwOr_invalid c0 c1 c2⟩, ⟨?_, rvOr_invalid c0 c1 c2⟩, himpl, ?_, ?_⟩
  · intro h255 hall
    obtain ⟨hfw, _, _, _, _⟩ := fwOr_valid c0 c1 c2 hall.1 hall.2.1 hall.2.2
    omega
  · intro h255 hall
    obtain ⟨_, hrv, _, _, _⟩ := fwOr_valid c0 c1 c2 hall.1 hall.2.1 hall.2.2
    omega
  · rw [validBase_iff]
    constructor
    · intro h hni
      exact hni h
    · intro h
      by_contra hne
      exact h hne
  · constructor
    · intro h255 hvb
      have := (validBase_iff c3).mp hvb
      rcases tableVals c3 with t | t <;> omega
    · intro hnv
      rcases tableVals c3 with t | t
      · exact t.2.2.2.2.2.2.2
      · exact absurd ((validBase_iff c3).mpr (by omega)) hnv

/-- Witness for C10 at the group A, C, G with fourth character T. -/
theorem C10_sentinel_witness :
    fw0 65 ||| fw1 67 ||| fw2 71 ≤ 252 :=
  ((C10_sentinel 65 67 71 84).2.2.1 (by decide) (by decide) (by decide)).1

end Arcs
